import Mathlib

/-!
# GuavaCache: a shallow embedding of the LRU container and the loading cache

The Go sources embedded here are `cache_entry.go`, `lru.go`, `singlefight.go`,
`stats.go` and `cache_guava.go`.

Modelling conventions

* `Key` and `Value` are `interface{}` in the source; here they are type
  parameters `K` and `V`, with decidable equality on keys (Go map keys are
  comparable).
* `time.Time` is a point on the integer nanosecond time line and
  `time.Duration` an integer number of nanoseconds.
* A `*list.Element` is an address (`Nat`).  The recency list `l.ls` is the
  sequence of its nodes from front to back; the nodes that `list.Remove`
  unlinked keep their `Value` and are remembered in `detached`, since
  `LruCache.Remove` reads `getEntry(el)` before it looks at the list.
* `sync.Map` is a finite association list from keys to node addresses.
* An operation that dereferences a pointer that designates no node returns
  `none` (a Go panic).  A nil `*list.Element` is not an address: `Hit(nil)`,
  which panics in Go, has no counterpart, and `Hit` of an address that is not
  linked is the no-op of `MoveToFront` on an element of another list.
* The `uint64` counters of `Stats` wrap modulo `2 ^ 64`, the `int64` load time
  wraps in two's complement, `Time.Sub` saturates.
* Calls are run one after the other: locks are not modelled, a send on a
  channel is an append to a queue, a `go` statement records the goroutine it
  starts, and `SingleFight.fight` has a result only when no call for the key
  is in flight.

* `float64` is `Float`; the conversion of the `uint64` load total to
  `time.Duration` wraps to a signed 64-bit value and the `int64` division
  truncates toward zero.
* `Element.Next` is nil for a node that `list.Remove` unlinked, as in
  `container/list`.

The file has the definitions first (container, loading cache, removal, sweep,
statistics, concrete scenarios), then the lemmas and the claims `C1` to `C20`
with their instances at concrete inputs.
-/

set_option linter.unusedSectionVars false

namespace GuavaCache

/-- A `time.Time`, as a point on the nanosecond time line. -/
abbrev Time := Int

/-- A `time.Duration`, in nanoseconds. -/
abbrev Duration := Int

/-- The struct `CacheEntry` of `cache_entry.go`. -/
structure CacheEntry (K V : Type) where
  key : K
  value : V
  access : Time
  write : Time
deriving DecidableEq, Repr

/-- A node of `container/list`: its address and its `Value`, which the cache
always fills with a `*CacheEntry`. -/
structure Element (K V : Type) where
  addr : Nat
  Value : CacheEntry K V
deriving DecidableEq, Repr

section Index

variable {K : Type} [DecidableEq K]

/-- The method `sync.Map.Load` on the index: the node stored under `k`. -/
def Load : List (K × Nat) → K → Option Nat
  | [], _ => none
  | (k', el) :: m, k => if k' = k then some el else Load m k

/-- The method `sync.Map.Delete`. -/
def Delete (m : List (K × Nat)) (k : K) : List (K × Nat) :=
  m.filter (fun p => decide (p.1 ≠ k))

/-- The method `sync.Map.Store`: the binding of `k` is replaced. -/
def Store (m : List (K × Nat)) (k : K) (el : Nat) : List (K × Nat) :=
  (k, el) :: Delete m k

end Index

section GoList

variable {K V : Type}

/-- The node of the list that lives at address `el`, if it is linked. -/
def findNode (ls : List (Element K V)) (el : Nat) : Option (Element K V) :=
  ls.find? (fun e => decide (e.addr = el))

/-- Unlinking the node at address `el` (the private `list.remove`). -/
def unlink (ls : List (Element K V)) (el : Nat) : List (Element K V) :=
  ls.filter (fun e => decide (e.addr ≠ el))

/-- The method `list.MoveToFront`: nothing happens when `el` is not a node of
this list (`e.list != l`), otherwise the node becomes the first one. -/
def MoveToFront (ls : List (Element K V)) (el : Nat) : List (Element K V) :=
  match findNode ls el with
  | none => ls
  | some e => e :: unlink ls el

/-- The method `list.Back`: the last node, `none` for the empty list. -/
def Back (ls : List (Element K V)) : Option (Element K V) :=
  ls.getLast?

/-- Assigning `el.Value = en` for the node at address `el`. -/
def setValue (ls : List (Element K V)) (el : Nat) (en : CacheEntry K V) :
    List (Element K V) :=
  ls.map (fun e => if e.addr = el then { e with Value := en } else e)

end GoList

/-- The struct `LruCache` of `lru.go`.  `detached` holds the nodes that were
unlinked from `ls`, `fresh` is the next address `PushFront` allocates. -/
structure LruCache (K V : Type) where
  cap : Int
  ls : List (Element K V)
  data : List (K × Nat)
  detached : List (Element K V)
  fresh : Nat
deriving DecidableEq, Repr

namespace LruCache

variable {K V : Type} [DecidableEq K]

/-- The method `LruCache.Init`, on a new container. -/
def Init (cap : Int) : LruCache K V :=
  { cap := cap, ls := [], data := [], detached := [], fresh := 0 }

/-- The method `LruCache.Get`: the node the index holds for `key`. -/
def Get (l : LruCache K V) (key : K) : Option Nat :=
  Load l.data key

/-- The function `getEntry` of `cache_entry.go`: the entry a node points to,
whether the node is linked or was unlinked; `none` when `el` designates no
node. -/
def getEntry (l : LruCache K V) (el : Nat) : Option (CacheEntry K V) :=
  match findNode l.ls el with
  | some e => some e.Value
  | none => (findNode l.detached el).map (fun e => e.Value)

/-- The function `setEntry` of `cache_entry.go`. -/
def setEntry (l : LruCache K V) (el : Nat) (en : CacheEntry K V) : LruCache K V :=
  { l with ls := setValue l.ls el en, detached := setValue l.detached el en }

/-- The method `list.PushFront` followed by the index `Store` of `Add`. -/
def pushFront (l : LruCache K V) (en : CacheEntry K V) : LruCache K V :=
  { l with ls := ⟨l.fresh, en⟩ :: l.ls,
           data := Store l.data en.key l.fresh,
           fresh := l.fresh + 1 }

/-- The method `LruCache.Add`.  The second component is the returned
`*CacheEntry` (`none` for `nil`). -/
def Add (l : LruCache K V) (en : CacheEntry K V) :
    LruCache K V × Option (CacheEntry K V) :=
  match Load l.data en.key with
  | some el =>
    let l1 := setEntry l el en
    ({ l1 with ls := MoveToFront l1.ls el }, none)
  | none =>
    if l.cap ≤ 0 ∨ (l.ls.length : Int) < l.cap then
      (pushFront l en, none)
    else
      match Back l.ls with
      | none => (l, some en)
      | some b =>
        let remEn := b.Value
        let l1 := setEntry l b.addr en
        ({ l1 with ls := MoveToFront l1.ls b.addr,
                   data := Store (Delete l1.data remEn.key) en.key b.addr },
         some remEn)

/-- The method `LruCache.Hit`. -/
def Hit (l : LruCache K V) (el : Nat) : LruCache K V :=
  { l with ls := MoveToFront l.ls el }

/-- The method `list.Remove` on the recency list: a linked node is unlinked
and kept, with its `Value`, among the detached nodes. -/
def listRemove (l : LruCache K V) (el : Nat) : LruCache K V :=
  match findNode l.ls el with
  | none => l
  | some e => { l with ls := unlink l.ls el, detached := e :: l.detached }

/-- The method `LruCache.Remove`.  The outer `none` is the panic of
`getEntry` on a pointer that designates no node; the inner option is the
returned `*CacheEntry`. -/
def Remove (l : LruCache K V) (el : Nat) :
    Option (LruCache K V × Option (CacheEntry K V)) :=
  match getEntry l el with
  | none => none
  | some en =>
    match Load l.data en.key with
    | none => some (l, none)
    | some _ =>
      let l1 := listRemove l el
      some ({ l1 with data := Delete l1.data en.key }, some en)

/-- The number of entries in the recency list (`l.ls.Len()`). -/
def size (l : LruCache K V) : Nat := l.ls.length

/-- The keys of the recency list, front first. -/
def keys (l : LruCache K V) : List K := l.ls.map (fun e => e.Value.key)

end LruCache

/-- One call on the container. -/
inductive Op (K V : Type) where
  | add (en : CacheEntry K V)
  | hit (el : Nat)
  | remove (el : Nat)
deriving DecidableEq, Repr

namespace LruCache

variable {K V : Type} [DecidableEq K]

/-- The effect of one call on the container; `none` when the call panics. -/
def step (l : LruCache K V) : Op K V → Option (LruCache K V)
  | .add en => some (Add l en).1
  | .hit el => some (Hit l el)
  | .remove el => (Remove l el).map (fun r => r.1)

/-- A sequence of calls, applied from left to right. -/
def run (l : LruCache K V) : List (Op K V) → Option (LruCache K V)
  | [] => some l
  | op :: ops =>
    match step l op with
    | none => none
    | some l1 => run l1 ops

/-- Whether the node at address `el` is linked in the recency list. -/
def linked (l : LruCache K V) (el : Nat) : Bool :=
  (findNode l.ls el).isSome

/-- Whether the call is an `Add`, or a `Hit` or `Remove` of a linked node. -/
def liveOp (l : LruCache K V) : Op K V → Bool
  | .add _ => true
  | .hit el => linked l el
  | .remove el => linked l el

/-- Whether every `Hit` and `Remove` of the sequence is applied to a node
that is linked at that moment. -/
def liveRun (l : LruCache K V) : List (Op K V) → Bool
  | [] => true
  | op :: ops =>
    liveOp l op &&
      (match step l op with
       | none => false
       | some l1 => liveRun l1 ops)

end LruCache

namespace LruCache

variable {K V : Type} [DecidableEq K]

/-- What every call on the container keeps true, whatever node it is given:
the nodes of the list have distinct addresses below the allocation mark, the
unlinked nodes are apart from the linked ones, the index has one binding per
key, every binding of the index points to a linked node that carries the
key, and a positive capacity bounds the length of the list. -/
structure Sound (l : LruCache K V) : Prop where
  addrs : (l.ls.map (fun e => e.addr)).Nodup
  below : ∀ e ∈ l.ls, e.addr < l.fresh
  apart : ∀ d ∈ l.detached, d.addr < l.fresh ∧ ∀ e ∈ l.ls, e.addr ≠ d.addr
  index_keys : (l.data.map Prod.fst).Nodup
  index_node : ∀ k el, (k, el) ∈ l.data → ∃ e ∈ l.ls, e.addr = el ∧ e.Value.key = k
  bound : 0 < l.cap → (l.ls.length : Int) ≤ l.cap

/-- A sound container in which, moreover, every linked node is bound in the
index under the key of its entry. -/
structure Coherent (l : LruCache K V) : Prop where
  sound : Sound l
  node_index : ∀ e ∈ l.ls, (e.Value.key, e.addr) ∈ l.data

/-- Index/list consistency: the index sends a key to a linked node whose
entry has that key, a linked node is the image of the key of its entry and
of no other key, no two linked nodes share an address and no two share a
key. -/
structure Consistent (l : LruCache K V) : Prop where
  index_node : ∀ k el, Load l.data k = some el →
    ∃ e ∈ l.ls, e.addr = el ∧ e.Value.key = k
  node_index : ∀ e ∈ l.ls, ∀ k, Load l.data k = some e.addr ↔ k = e.Value.key
  addrs : (l.ls.map (fun e => e.addr)).Nodup
  keys : (l.ls.map (fun e => e.Value.key)).Nodup

end LruCache

/-! ## The loading cache (`cache_guava.go`, `singlefight.go`, `stats.go`)

The cache is run sequentially.  What lies outside it is an `Env`: the
successive readings of `time.Now()` and the results of the successive
invocations of the loader.  The state counts the readings and invocations
made so far.  A send on a channel appends to the queue of that channel, one
iteration of `processEvent` receives from the channel `select` picks, and a
`go` statement records the goroutine it starts. -/

/-- A Go `error` value. -/
abbrev Error := String

/-- Modelled from the spec: `EmptyError`, the configuration error `loadInfo`
returns when no loader is set; its declaration is not in the given sources. -/
def EmptyError : Error := "loader is empty"

/-- An unsigned 64-bit result. -/
def u64 (n : Nat) : Nat := n % 2 ^ 64

/-- A signed 64-bit result (two's complement). -/
def i64 (x : Int) : Int := (x + 2 ^ 63) % 2 ^ 64 - 2 ^ 63

/-- The method `time.Time.Sub`: the difference, saturated to the range of a
`Duration`. -/
def Sub (t u : Time) : Duration :=
  if t - u > 2 ^ 63 - 1 then 2 ^ 63 - 1
  else if t - u < -(2 ^ 63) then -(2 ^ 63)
  else t - u

/-- The struct `Stats` of `stats.go`. -/
structure Stats where
  HitCount : Nat
  MissCount : Nat
  LoadSuccessCount : Nat
  LoadErrorCount : Nat
  TotalLoadTime : Duration
  EvictionCount : Nat
deriving DecidableEq, Repr

namespace Stats

/-- The method `statsCounter.RecordHits`. -/
def RecordHits (s : Stats) (count : Nat) : Stats :=
  { s with HitCount := u64 (s.HitCount + count) }

/-- The method `statsCounter.RecordMisses`. -/
def RecordMisses (s : Stats) (count : Nat) : Stats :=
  { s with MissCount := u64 (s.MissCount + count) }

/-- The method `statsCounter.RecordLoadSuccess`. -/
def RecordLoadSuccess (s : Stats) (loadTime : Duration) : Stats :=
  { s with LoadSuccessCount := u64 (s.LoadSuccessCount + 1),
           TotalLoadTime := i64 (s.TotalLoadTime + loadTime) }

/-- The method `statsCounter.RecordLoadError`. -/
def RecordLoadError (s : Stats) (loadTime : Duration) : Stats :=
  { s with LoadErrorCount := u64 (s.LoadErrorCount + 1),
           TotalLoadTime := i64 (s.TotalLoadTime + loadTime) }

/-- The method `statsCounter.RecordEviction`. -/
def RecordEviction (s : Stats) : Stats :=
  { s with EvictionCount := u64 (s.EvictionCount + 1) }

end Stats

/-- The struct `SingleFight`: the keys of the map `m`, that is the keys with
a call in flight. -/
structure SingleFight (K : Type) where
  m : List K
deriving DecidableEq, Repr

/-- What lies outside the cache: `now n` is the `n`-th reading of
`time.Now()`; `loader` is the field `g.loader` (`none` for `nil`), whose
`n`-th invocation on `key` returns `loader n key`, an error or a value. -/
structure Env (K V : Type) where
  now : Nat → Time
  loader : Option (Nat → K → Except Error V)

/-- The struct `LoadingCache`.  The three channels are the queues of what was
sent and not yet received; `refreshMap` is the key set of the map;
`refreshing` lists the entries on which `go g.refresh(en)` was started;
`clock` and `loads` count the readings of `time.Now()` and the invocations
of the loader. -/
structure LoadingCache (K V : Type) where
  expireAfterAccess : Duration
  expireAfterWrite : Duration
  refreshAfterWrite : Duration
  maximumSize : Int
  addEvent : List (CacheEntry K V)
  removeEvent : List (CacheEntry K V)
  hitEvent : List Nat
  singleFight : SingleFight K
  lruContainer : LruCache K V
  refreshMap : List K
  stats : Stats
  refreshing : List (CacheEntry K V)
  clock : Nat
  loads : Nat
deriving DecidableEq, Repr

/-- The constant `DefaultSize`. -/
def DefaultSize : Int := 2 ^ 30

/-- The channel a `select` of `processEvent` receives from. -/
inductive Chan where
  | hit
  | remove
  | add
deriving DecidableEq, Repr

namespace LoadingCache

variable {K V : Type} [DecidableEq K]

/-- The function `newLoadingCache` followed by the options
`WithExpireAfterAccess`, `WithExpireAfterWrite`, `WithRefreshAfterWrite`,
`WithMaximumSize` and by `initCache`. -/
def BuildLoadingCache (expireAfterAccess expireAfterWrite refreshAfterWrite : Duration)
    (maximumSize : Int) : LoadingCache K V :=
  { expireAfterAccess := expireAfterAccess,
    expireAfterWrite := expireAfterWrite,
    refreshAfterWrite := refreshAfterWrite,
    maximumSize := maximumSize,
    addEvent := [], removeEvent := [], hitEvent := [],
    singleFight := ⟨[]⟩,
    lruContainer := LruCache.Init maximumSize,
    refreshMap := [],
    stats := ⟨0, 0, 0, 0, 0, 0⟩,
    refreshing := [],
    clock := 0, loads := 0 }

/-- One call of `time.Now()`. -/
def now (env : Env K V) (g : LoadingCache K V) : Time × LoadingCache K V :=
  (env.now g.clock, { g with clock := g.clock + 1 })

/-- The method `LoadingCache.isExpired`. -/
def isExpired (g : LoadingCache K V) (en : CacheEntry K V) (now : Time) : Bool :=
  if g.expireAfterAccess > 0 ∧ en.access < now + (-g.expireAfterAccess) then true
  else if g.expireAfterWrite > 0 ∧ en.write < now + (-g.expireAfterWrite) then true
  else false

/-- The method `SingleFight.fight` for a caller that runs alone: with no call
for `key` in flight it registers the call, runs `fn`, unregisters the call
and returns the result of `fn`; with a call in flight it waits for a caller
that does not exist, so there is no result (`none`). -/
def fight {R : Type} (g : LoadingCache K V) (key : K)
    (fn : LoadingCache K V → R × LoadingCache K V) :
    Option (R × LoadingCache K V) :=
  if key ∈ g.singleFight.m then none
  else
    let r := fn { g with singleFight := ⟨key :: g.singleFight.m⟩ }
    some (r.1, { r.2 with
      singleFight := ⟨r.2.singleFight.m.filter (fun k => decide (k ≠ key))⟩ })

/-- The closure `fight` of `loadInfo`, given the loader. -/
def loadFn (env : Env K V) (loader : Nat → K → Except Error V) (key : K)
    (g : LoadingCache K V) : Except Error V × LoadingCache K V :=
  let (startTime, g1) := now env g
  let g2 := { g1 with loads := g1.loads + 1 }
  match loader g1.loads key with
  | .ok value =>
    let (tAccess, g3) := now env g2
    let (tWrite, g4) := now env g3
    let entry : CacheEntry K V :=
      { key := key, value := value, access := tAccess, write := tWrite }
    let r := LruCache.Add g4.lruContainer entry
    let g5 := { g4 with
      lruContainer := r.1,
      removeEvent := match r.2 with
        | some removeEn => g4.removeEvent ++ [removeEn]
        | none => g4.removeEvent }
    let g6 := { g5 with addEvent := g5.addEvent ++ [entry] }
    let (tEnd, g7) := now env g6
    (.ok value, { g7 with stats := g7.stats.RecordLoadSuccess (Sub tEnd startTime) })
  | .error e =>
    let (tEnd, g3) := now env g2
    (.error e, { g3 with stats := g3.stats.RecordLoadError (Sub tEnd startTime) })

/-- The method `LoadingCache.loadInfo`. -/
def loadInfo (env : Env K V) (g : LoadingCache K V) (key : K) :
    Option (Except Error V × LoadingCache K V) :=
  match env.loader with
  | none => some (.error EmptyError, g)
  | some loader => fight g key (loadFn env loader key)

/-- The method `LoadingCache.checkRefreshAfterWrite`. -/
def checkRefreshAfterWrite (env : Env K V) (g : LoadingCache K V)
    (en : CacheEntry K V) : LoadingCache K V :=
  if g.refreshAfterWrite > 0 then
    let (t, g1) := now env g
    if en.write < t + (-g.refreshAfterWrite) then
      if en.key ∈ g1.refreshMap then g1
      else { g1 with refreshMap := en.key :: g1.refreshMap,
                     refreshing := g1.refreshing ++ [en] }
    else g1
  else g

/-- The test `f != nil && f(entry.value)` on the custom predicate. -/
def stale (f : Option (V → Bool)) (value : V) : Bool :=
  match f with
  | none => false
  | some p => p value

/-- The method `LoadingCache.GetWithExpiredFunc`.  The outer `none` stands for
a call that does not return. -/
def GetWithExpiredFunc (env : Env K V) (g : LoadingCache K V) (key : K)
    (f : Option (V → Bool)) : Option (Except Error V × LoadingCache K V) :=
  match g.lruContainer.Get key with
  | none => loadInfo env { g with stats := g.stats.RecordMisses 1 } key
  | some element =>
    match g.lruContainer.getEntry element with
    | none => none
    | some entry =>
      let (t, g1) := now env g
      if isExpired g1 entry t || stale f entry.value then
        loadInfo env g1 key
      else
        let g2 := checkRefreshAfterWrite env g1 entry
        let (tAccess, g3) := now env g2
        let g4 := { g3 with lruContainer :=
          g3.lruContainer.setEntry element { entry with access := tAccess } }
        some (.ok entry.value, { g4 with hitEvent := g4.hitEvent ++ [element] })

/-- The method `LoadingCache.Get`. -/
def Get (env : Env K V) (g : LoadingCache K V) (key : K) :
    Option (Except Error V × LoadingCache K V) :=
  GetWithExpiredFunc env g key none

/-- The method `LoadingCache.Put`. -/
def Put (env : Env K V) (g : LoadingCache K V) (key : K) (v : V) :
    Option (LoadingCache K V) :=
  match g.lruContainer.Get key with
  | some el =>
    match g.lruContainer.getEntry el with
    | none => none
    | some en =>
      some { g with lruContainer := g.lruContainer.setEntry el { en with value := v } }
  | none =>
    let (tWrite, g1) := now env g
    let (tAccess, g2) := now env g1
    let en : CacheEntry K V :=
      { key := key, value := v, write := tWrite, access := tAccess }
    some { g2 with lruContainer := (LruCache.Add g2.lruContainer en).1 }

/-- One iteration of the loop of `LoadingCache.processEvent`, for the channel
the `select` receives from; `none` when that channel has nothing queued. -/
def processEvent (g : LoadingCache K V) : Chan → Option (LoadingCache K V)
  | .hit =>
    match g.hitEvent with
    | [] => none
    | el :: rest =>
      some { g with hitEvent := rest,
                    lruContainer := g.lruContainer.Hit el,
                    stats := g.stats.RecordHits 1 }
  | .remove =>
    match g.removeEvent with
    | [] => none
    | _ :: rest => some { g with removeEvent := rest, stats := g.stats.RecordEviction }
  | .add =>
    match g.addEvent with
    | [] => none
    | _ :: rest => some { g with addEvent := rest }

/-- Whether `GetWithExpiredFunc` hands the call to `loadInfo`: the key is
absent, or its entry is expired at the reading of the clock the call makes,
or the custom predicate holds of the cached value. -/
def takesLoadPath (env : Env K V) (g : LoadingCache K V) (key : K)
    (f : Option (V → Bool)) : Bool :=
  match g.lruContainer.Get key with
  | none => true
  | some element =>
    match g.lruContainer.getEntry element with
    | none => false
    | some entry => isExpired g entry (env.now g.clock) || stale f entry.value

end LoadingCache

/-! ## Removal, the expiration sweep, the event worker and the statistics -/

section Walk

variable {K V : Type}

/-- The method `list.Front`: the first node, `none` for the empty list. -/
def Front (ls : List (Element K V)) : Option Nat :=
  ls.head?.map (fun e => e.addr)

/-- The method `Element.Next` of `container/list`: the node that follows `el`
in the list; `none` (nil) for the back node and for a node that is not
linked, since `list.Remove` resets `e.next` and `e.list` of the node it
unlinks. -/
def Next : List (Element K V) → Nat → Option Nat
  | [], _ => none
  | e :: rest, el => if e.addr = el then Front rest else Next rest el

end Walk

/-- The function `getMinTimeDurationExcludeZero`. -/
def getMinTimeDurationExcludeZero (t1 t2 : Duration) : Duration :=
  if t2 > 0 ∧ (t1 = 0 ∨ t1 > t2) then t2 else t1

namespace Stats

/-- The method `Stats.RequestCount`. -/
def RequestCount (s : Stats) : Nat :=
  u64 (s.HitCount + s.MissCount)

/-- The method `Stats.HitRate`; `float64` is the type `Float`. -/
def HitRate (s : Stats) : Float :=
  if s.RequestCount = 0 then 1.0
  else Float.ofNat s.HitCount / Float.ofNat s.RequestCount

/-- The method `Stats.MissRate`. -/
def MissRate (s : Stats) : Float :=
  if s.RequestCount = 0 then 0.0
  else Float.ofNat s.MissCount / Float.ofNat s.RequestCount

/-- The method `Stats.LoadErrorRate`. -/
def LoadErrorRate (s : Stats) : Float :=
  if u64 (s.LoadSuccessCount + s.LoadErrorCount) = 0 then 0.0
  else Float.ofNat s.LoadErrorCount
    / Float.ofNat (u64 (s.LoadSuccessCount + s.LoadErrorCount))

/-- The method `Stats.AverageLoadPenalty`: the `uint64` total is converted to
the signed `time.Duration`, and the `int64` division truncates toward
zero. -/
def AverageLoadPenalty (s : Stats) : Duration :=
  if u64 (s.LoadSuccessCount + s.LoadErrorCount) = 0 then 0
  else i64 (Int.tdiv s.TotalLoadTime
    (i64 (u64 (s.LoadSuccessCount + s.LoadErrorCount) : Int)))

end Stats

namespace LoadingCache

variable {K V : Type} [DecidableEq K]

/-- The method `LoadingCache.removeEl`: the value of the removed entry, `none`
for `nil`.  The outer `none` is a panic of the container. -/
def removeEl (g : LoadingCache K V) (ele : Nat) :
    Option (Option V × LoadingCache K V) :=
  match g.lruContainer.Remove ele with
  | none => none
  | some r =>
    match r.2 with
    | none => some (none, { g with lruContainer := r.1 })
    | some entry => some (some entry.value, { g with lruContainer := r.1 })

/-- The method `LoadingCache.Remove`. -/
def Remove (g : LoadingCache K V) (key : K) : Option (LoadingCache K V) :=
  match g.lruContainer.Get key with
  | some element => (removeEl g element).map (fun r => r.2)
  | none => some g

/-- The loop `for el := list.Front(); el != nil; el = el.Next()` of
`clearExpiredKey`, from the node `el` on.  The first argument bounds the
number of iterations; the walk visits a node of the list at most once, so
the length of the list is enough and `none` stands for a panic. -/
def sweep (env : Env K V) : Nat → LoadingCache K V → Option Nat →
    Option (LoadingCache K V)
  | _, g, none => some g
  | 0, _, some _ => none
  | fuel + 1, g, some el =>
    match g.lruContainer.getEntry el with
    | none => none
    | some en =>
      let (t, g1) := now env g
      if isExpired g1 en t then
        match removeEl g1 el with
        | none => none
        | some r => sweep env fuel r.2 (Next r.2.lruContainer.ls el)
      else sweep env fuel g1 (Next g1.lruContainer.ls el)

/-- The method `LoadingCache.clearExpiredKey`. -/
def clearExpiredKey (env : Env K V) (g : LoadingCache K V) :
    Option (LoadingCache K V) :=
  sweep env g.lruContainer.ls.length g (Front g.lruContainer.ls)

/-- The guard of `LoadingCache.clearExpireKeyTask`: the periodic sweep runs
only for a non-zero period. -/
def sweepTaskRuns (expireTime : Duration) : Bool :=
  decide (expireTime ≠ 0)

/-- The worker `processEvent` run for the given choices of `select`. -/
def processEvents (g : LoadingCache K V) : List Chan → Option (LoadingCache K V)
  | [] => some g
  | c :: cs =>
    match processEvent g c with
    | none => none
    | some g1 => processEvents g1 cs

/-- Whether nothing is queued on the three channels. -/
def idle (g : LoadingCache K V) : Bool :=
  g.hitEvent.isEmpty && g.removeEvent.isEmpty && g.addEvent.isEmpty

end LoadingCache

/-! ## Concrete scenarios -/

namespace LoadingCache

variable {K V : Type} [DecidableEq K]

/-- The loop `for i := 0; i < n; i++ { g.GetWithExpiredFunc(key, f) }` of the
test `TestLoadingCache_GetWithExpiredFunc`, with the list of the results. -/
def GetTimes (env : Env K V) (key : K) (f : Option (V → Bool)) :
    Nat → LoadingCache K V → Option (List (Except Error V) × LoadingCache K V)
  | 0, g => some ([], g)
  | n + 1, g =>
    match GetWithExpiredFunc env g key f with
    | none => none
    | some r =>
      match GetTimes env key f n r.2 with
      | none => none
      | some rs => some (r.1 :: rs.1, rs.2)

end LoadingCache

/-- A container of capacity 2 that holds the keys 2 (front) and 1 (back). -/
def demoFull : LruCache Nat Nat :=
  (LruCache.Add (LruCache.Add (LruCache.Init 2) ⟨1, 10, 0, 0⟩).1 ⟨2, 20, 0, 0⟩).1

/-- A sequence of calls with an unlinked node given to `Remove`. -/
def demoOps : List (Op Nat Nat) :=
  [.add ⟨1, 10, 0, 0⟩, .add ⟨2, 20, 0, 0⟩, .remove 0, .add ⟨1, 11, 0, 0⟩, .remove 0,
   .add ⟨1, 12, 0, 0⟩]

/-- A sequence of calls on linked nodes only. -/
def demoLiveOps : List (Op Nat Nat) :=
  [.add ⟨1, 10, 0, 0⟩, .add ⟨2, 20, 0, 0⟩, .hit 0, .add ⟨3, 30, 0, 0⟩, .remove 0,
   .add ⟨2, 21, 5, 5⟩]

/-- A clock that advances by one nanosecond at each reading and a loader
whose `n`-th invocation returns `100 + n`. -/
def demoEnv : Env Nat Nat :=
  { now := fun n => (n : Int), loader := some (fun n _ => .ok (100 + n)) }

/-- The cache of `TestLoadingCache_GetWithExpiredFunc`: both expirations two
hours, no refresh, maximum size 2. -/
def demoCache : LoadingCache Nat Nat :=
  LoadingCache.BuildLoadingCache 7200000000000 7200000000000 0 2

/-- The cache `demoCache` after one `Get` of the key 1. -/
def demoLoaded : LoadingCache Nat Nat :=
  match LoadingCache.Get demoEnv demoCache 1 with
  | some r => r.2
  | none => demoCache

/-- The environment `demoEnv` with a loader that fails. -/
def demoFailEnv : Env Nat Nat :=
  { now := fun n => (n : Int), loader := some (fun _ _ => .error "boom") }

/-- A clock that reads 0 twice and 10 from then on, a loader that returns 99. -/
def staleEnv : Env Nat Nat :=
  { now := fun n => if n < 2 then 0 else 10, loader := some (fun _ _ => .ok 99) }

/-- A cache with `expireAfterWrite = 2` that holds the key 1 with the value
10, written and accessed at time 0. -/
def staleCache : LoadingCache Nat Nat :=
  match LoadingCache.Put staleEnv (LoadingCache.BuildLoadingCache 0 2 0 2) 1 10 with
  | some g => g
  | none => LoadingCache.BuildLoadingCache 0 2 0 2

/-- The container `Init(2)` after `Add` of the keys 1 and 2, `Remove` of the
node 0 (key 1) and a second `Add` of the key 1, which gets the node 2. -/
def demoReinserted : LruCache Nat Nat :=
  match LruCache.run (LruCache.Init 2) (demoOps.take 4) with
  | some l => l
  | none => LruCache.Init 2

/-- A clock that reads 0 six times and 10 from then on, a loader that
returns 99. -/
def sweepEnv : Env Nat Nat :=
  { now := fun n => if n < 6 then 0 else 10, loader := some (fun _ _ => .ok 99) }

/-- A cache with `expireAfterWrite = 2` and room for three entries that holds
the keys 3, 2, 1 (front first), all written at time 0; its clock reads 10. -/
def sweepCache : LoadingCache Nat Nat :=
  match (LoadingCache.Put sweepEnv (LoadingCache.BuildLoadingCache 0 2 0 3) 1 10).bind
      (fun g => (LoadingCache.Put sweepEnv g 2 20).bind
        (fun g => LoadingCache.Put sweepEnv g 3 30)) with
  | some g => g
  | none => LoadingCache.BuildLoadingCache 0 2 0 3

/-- A cache without expiration and with room for one entry, which holds the
key 1. -/
def oneSlotCache : LoadingCache Nat Nat :=
  match LoadingCache.Put demoEnv (LoadingCache.BuildLoadingCache 0 0 0 1) 1 10 with
  | some g => g
  | none => LoadingCache.BuildLoadingCache 0 0 0 1

/-- A snapshot with `2 ^ 64 - 1` successful loads and a total load time of 5. -/
def hugeStats : Stats :=
  ⟨0, 0, 2 ^ 64 - 1, 0, 5, 0⟩

/-- A cache with `refreshAfterWrite = 5` and no expiration that holds the key
1, written at time 0; its clock reads 10. -/
def refreshCache : LoadingCache Nat Nat :=
  match LoadingCache.Put staleEnv (LoadingCache.BuildLoadingCache 0 0 5 2) 1 10 with
  | some g => g
  | none => LoadingCache.BuildLoadingCache 0 0 5 2

/-- The container `Init(0)` after `Add` of the keys 1, 2 and 3. -/
def demoUnbounded : LruCache Nat Nat :=
  { cap := 0, ls := [⟨2, ⟨3, 30, 0, 0⟩⟩, ⟨1, ⟨2, 20, 0, 0⟩⟩, ⟨0, ⟨1, 10, 0, 0⟩⟩],
    data := [(3, 2), (2, 1), (1, 0)], detached := [], fresh := 3 }

/-! ## Lemmas on the index -/

section IndexLemmas

variable {K : Type} [DecidableEq K]

theorem mem_Delete {m : List (K × Nat)} {k : K} {p : K × Nat} :
    p ∈ Delete m k ↔ p ∈ m ∧ p.1 ≠ k := by
  simp [Delete]

theorem mem_of_Load {m : List (K × Nat)} {k : K} {el : Nat}
    (h : Load m k = some el) : (k, el) ∈ m := by
  induction m with
  | nil => simp [Load] at h
  | cons p m ih =>
    obtain ⟨k1, el1⟩ := p
    by_cases hk : k1 = k
    · subst hk
      simp [Load] at h
      simp [h]
    · simp [Load, hk] at h
      exact List.mem_cons_of_mem _ (ih h)

theorem Load_eq_none {m : List (K × Nat)} {k : K} :
    Load m k = none ↔ ∀ el, (k, el) ∉ m := by
  induction m with
  | nil => simp [Load]
  | cons p m ih =>
    obtain ⟨k1, el1⟩ := p
    by_cases hk : k1 = k
    · subst hk
      simp only [Load, if_true]
      constructor
      · intro h
        cases h
      · intro h
        exact absurd (List.mem_cons_self _ _) (h el1)
    · simp only [Load, if_neg hk, ih]
      constructor
      · intro h el hmem
        rcases List.mem_cons.1 hmem with heq | hmem
        · exact hk (congrArg Prod.fst heq).symm
        · exact h el hmem
      · intro h el hmem
        exact h el (List.mem_cons_of_mem _ hmem)

theorem Load_of_mem {m : List (K × Nat)} {k : K} {el : Nat}
    (hn : (m.map Prod.fst).Nodup) (h : (k, el) ∈ m) : Load m k = some el := by
  induction m with
  | nil => cases h
  | cons p m ih =>
    obtain ⟨k1, el1⟩ := p
    simp only [List.map_cons, List.nodup_cons] at hn
    rcases List.mem_cons.1 h with heq | hmem
    · cases heq
      simp [Load]
    · have hk : k1 ≠ k := by
        intro hk
        subst hk
        exact hn.1 (List.mem_map_of_mem Prod.fst hmem)
      simp only [Load, if_neg hk]
      exact ih hn.2 hmem

theorem Load_Delete_self (m : List (K × Nat)) (k : K) : Load (Delete m k) k = none := by
  rw [Load_eq_none]
  intro el h
  exact (mem_Delete.1 h).2 rfl

theorem Load_Delete_ne (m : List (K × Nat)) {k k1 : K} (h : k1 ≠ k) :
    Load (Delete m k) k1 = Load m k1 := by
  induction m with
  | nil => rfl
  | cons p m ih =>
    obtain ⟨k2, el2⟩ := p
    by_cases hk : k2 = k
    · subst hk
      have h2 : ¬ k2 = k1 := fun e => h e.symm
      simp only [Delete, List.filter, Load, if_neg h2] at ih ⊢
      simpa using ih
    · by_cases hk1 : k2 = k1
      · subst hk1
        simp [Delete, List.filter, Load, hk]
      · simp only [Delete, List.filter, Load, if_neg hk1] at ih ⊢
        simpa [hk, Load, hk1] using ih

theorem Load_Store_self (m : List (K × Nat)) (k : K) (el : Nat) :
    Load (Store m k el) k = some el := by
  simp [Store, Load]

theorem Load_Store_ne (m : List (K × Nat)) {k k1 : K} (el : Nat) (h : k1 ≠ k) :
    Load (Store m k el) k1 = Load m k1 := by
  have h2 : ¬ k = k1 := fun e => h e.symm
  simp only [Store, Load, if_neg h2]
  exact Load_Delete_ne m h

theorem nodup_Delete {m : List (K × Nat)} (k : K) (hn : (m.map Prod.fst).Nodup) :
    ((Delete m k).map Prod.fst).Nodup :=
  hn.sublist (List.Sublist.map _ (List.filter_sublist _))

theorem nodup_Store {m : List (K × Nat)} (k : K) (el : Nat)
    (hn : (m.map Prod.fst).Nodup) : ((Store m k el).map Prod.fst).Nodup := by
  simp only [Store, List.map_cons, List.nodup_cons]
  refine ⟨?_, nodup_Delete k hn⟩
  intro h
  obtain ⟨p, hp, hk⟩ := List.mem_map.1 h
  exact (mem_Delete.1 hp).2 hk

theorem Delete_of_Load_none {m : List (K × Nat)} {k : K} (h : Load m k = none) :
    Delete m k = m := by
  rw [Delete, List.filter_eq_self]
  intro p hp
  rw [Load_eq_none] at h
  simp only [ne_eq, decide_eq_true_eq]
  intro hk
  exact h p.2 (by rw [← hk]; exact hp)

end IndexLemmas

/-! ## Lemmas on the recency list -/

section ListLemmas

variable {K V : Type}

theorem findNode_split {ls : List (Element K V)} {el : Nat} {e : Element K V}
    (h : findNode ls el = some e) :
    e.addr = el ∧ ∃ as bs, ls = as ++ e :: bs := by
  induction ls with
  | nil => simp [findNode] at h
  | cons x ls ih =>
    by_cases hx : x.addr = el
    · simp [findNode, List.find?, hx] at h
      subst h
      exact ⟨hx, [], ls, rfl⟩
    · simp only [findNode, List.find?, hx, decide_False] at h
      obtain ⟨h1, as, bs, h2⟩ := ih h
      exact ⟨h1, x :: as, bs, by rw [h2]; rfl⟩

theorem findNode_eq_none {ls : List (Element K V)} {el : Nat} :
    findNode ls el = none ↔ ∀ x ∈ ls, x.addr ≠ el := by
  simp [findNode]

theorem addr_ne_of_nodup {as bs : List (Element K V)} {e : Element K V}
    (hn : ((as ++ e :: bs).map (fun x => x.addr)).Nodup) :
    (∀ x ∈ as, x.addr ≠ e.addr) ∧ (∀ x ∈ bs, x.addr ≠ e.addr) := by
  simp only [List.map_append, List.map_cons, List.nodup_append, List.nodup_cons,
    List.mem_map, List.disjoint_cons_right] at hn
  constructor
  · intro x hx heq
    exact hn.2.2.1 ⟨x, hx, heq⟩
  · intro x hx heq
    exact hn.2.1.1 ⟨x, hx, heq⟩

theorem findNode_mid {as bs : List (Element K V)} {e : Element K V}
    (hn : ((as ++ e :: bs).map (fun x => x.addr)).Nodup) :
    findNode (as ++ e :: bs) e.addr = some e := by
  have h := (addr_ne_of_nodup hn).1
  induction as with
  | nil => simp [findNode]
  | cons x as ih =>
    have hx : x.addr ≠ e.addr := h x (List.mem_cons_self _ _)
    simp only [findNode, List.cons_append, List.find?, hx, decide_False]
    simp only [List.cons_append, List.map_cons, List.nodup_cons] at hn
    exact ih hn.2 (fun y hy => h y (List.mem_cons_of_mem _ hy))

theorem unlink_mid {as bs : List (Element K V)} {e : Element K V}
    (hn : ((as ++ e :: bs).map (fun x => x.addr)).Nodup) :
    unlink (as ++ e :: bs) e.addr = as ++ bs := by
  obtain ⟨h1, h2⟩ := addr_ne_of_nodup hn
  have ha : as.filter (fun x => !decide (x.addr = e.addr)) = as :=
    List.filter_eq_self.2 (fun x hx => by simpa using h1 x hx)
  have hb : bs.filter (fun x => !decide (x.addr = e.addr)) = bs :=
    List.filter_eq_self.2 (fun x hx => by simpa using h2 x hx)
  simp [unlink, List.filter_append, List.filter, ha, hb]

theorem setValue_mid {as bs : List (Element K V)} {e : Element K V}
    (en : CacheEntry K V)
    (hn : ((as ++ e :: bs).map (fun x => x.addr)).Nodup) :
    setValue (as ++ e :: bs) e.addr en = as ++ ⟨e.addr, en⟩ :: bs := by
  obtain ⟨h1, h2⟩ := addr_ne_of_nodup hn
  have ha : as.map (fun x => if x.addr = e.addr then { x with Value := en } else x) = as := by
    conv_rhs => rw [← List.map_id as]
    exact List.map_congr_left (fun x hx => by simp [h1 x hx])
  have hb : bs.map (fun x => if x.addr = e.addr then { x with Value := en } else x) = bs := by
    conv_rhs => rw [← List.map_id bs]
    exact List.map_congr_left (fun x hx => by simp [h2 x hx])
  simp [setValue, ha, hb]

theorem setValue_absent {ls : List (Element K V)} {el : Nat} (en : CacheEntry K V)
    (h : ∀ x ∈ ls, x.addr ≠ el) : setValue ls el en = ls := by
  unfold setValue
  conv_rhs => rw [← List.map_id ls]
  exact List.map_congr_left (fun x hx => by simp [h x hx])

theorem MoveToFront_mid {as bs : List (Element K V)} {e : Element K V}
    (hn : ((as ++ e :: bs).map (fun x => x.addr)).Nodup) :
    MoveToFront (as ++ e :: bs) e.addr = e :: (as ++ bs) := by
  simp only [MoveToFront, findNode_mid hn, unlink_mid hn]

theorem MoveToFront_absent {ls : List (Element K V)} {el : Nat}
    (h : ∀ x ∈ ls, x.addr ≠ el) : MoveToFront ls el = ls := by
  simp only [MoveToFront, findNode_eq_none.2 h]

end ListLemmas

/-! ## The shape of the container after each call -/

namespace LruCache

variable {K V : Type} [DecidableEq K]

theorem Add_present {l : LruCache K V} {en : CacheEntry K V} {el : Nat}
    (hs : Sound l) (h : Load l.data en.key = some el) :
    ∃ e as bs, l.ls = as ++ e :: bs ∧ e.addr = el ∧ e.Value.key = en.key ∧
      Add l en = ({ l with ls := ⟨el, en⟩ :: (as ++ bs) }, none) := by
  obtain ⟨e, he, ha, hk⟩ := hs.index_node _ _ (mem_of_Load h)
  obtain ⟨as, bs, hsplit⟩ := List.append_of_mem he
  refine ⟨e, as, bs, hsplit, ha, hk, ?_⟩
  have hn := hs.addrs
  rw [hsplit] at hn
  have h1 : setValue l.ls el en = as ++ ⟨el, en⟩ :: bs := by
    rw [hsplit, ← ha]
    exact setValue_mid en hn
  have hn2 : ((as ++ (⟨el, en⟩ : Element K V) :: bs).map (fun x => x.addr)).Nodup := by
    rw [← ha]
    simpa using hn
  have h2 : MoveToFront (as ++ (⟨el, en⟩ : Element K V) :: bs) el
      = ⟨el, en⟩ :: (as ++ bs) :=
    MoveToFront_mid (e := ⟨el, en⟩) hn2
  have h3 : setValue l.detached el en = l.detached :=
    setValue_absent en (fun d hd heq => (hs.apart d hd).2 e he (ha.trans heq.symm))
  simp only [Add, h, setEntry, h1, h2, h3]

theorem Add_room {l : LruCache K V} {en : CacheEntry K V}
    (h : Load l.data en.key = none)
    (hc : l.cap ≤ 0 ∨ (l.ls.length : Int) < l.cap) :
    Add l en = (pushFront l en, none) := by
  simp only [Add, h, if_pos hc]

theorem Add_full {l : LruCache K V} (en : CacheEntry K V)
    (hs : Sound l) (h : Load l.data en.key = none)
    (hc : ¬ (l.cap ≤ 0 ∨ (l.ls.length : Int) < l.cap)) :
    ∃ init b, l.ls = init ++ [b] ∧
      Add l en = ({ l with ls := ⟨b.addr, en⟩ :: init,
                           data := Store (Delete l.data b.Value.key) en.key b.addr },
                  some b.Value) := by
  have hc2 : 0 < l.cap ∧ l.cap ≤ (l.ls.length : Int) := by
    constructor
    · by_contra hneg
      exact hc (Or.inl (not_lt.1 hneg))
    · by_contra hneg
      exact hc (Or.inr (not_le.1 hneg))
  cases hb : l.ls.getLast? with
  | none =>
    rw [List.getLast?_eq_none_iff] at hb
    rw [hb] at hc2
    simp at hc2
    omega
  | some b =>
    obtain ⟨init, hsplit⟩ := List.getLast?_eq_some_iff.1 hb
    refine ⟨init, b, hsplit, ?_⟩
    have hn := hs.addrs
    rw [hsplit] at hn
    have h1 : setValue l.ls b.addr en = init ++ [⟨b.addr, en⟩] := by
      rw [hsplit]
      exact setValue_mid en hn
    have hn2 : ((init ++ [(⟨b.addr, en⟩ : Element K V)]).map (fun x => x.addr)).Nodup := by
      simpa using hn
    have h2 : MoveToFront (init ++ [(⟨b.addr, en⟩ : Element K V)]) b.addr
        = ⟨b.addr, en⟩ :: init := by
      have := MoveToFront_mid (e := (⟨b.addr, en⟩ : Element K V)) hn2
      simpa using this
    have h3 : setValue l.detached b.addr en = l.detached :=
      setValue_absent en (fun d hd heq =>
        (hs.apart d hd).2 b (by rw [hsplit]; simp) heq.symm)
    simp only [Add, h, if_neg hc, Back, hb, setEntry, h1, h2, h3]

theorem Hit_linked {l : LruCache K V} {el : Nat} {e : Element K V}
    (hs : Sound l) (h : findNode l.ls el = some e) :
    ∃ as bs, l.ls = as ++ e :: bs ∧ e.addr = el ∧
      Hit l el = { l with ls := e :: (as ++ bs) } := by
  obtain ⟨ha, as, bs, hsplit⟩ := findNode_split h
  refine ⟨as, bs, hsplit, ha, ?_⟩
  have hn := hs.addrs
  rw [hsplit] at hn
  have h2 := MoveToFront_mid hn
  rw [ha, ← hsplit] at h2
  simp only [Hit, h2]

theorem Hit_unlinked {l : LruCache K V} {el : Nat}
    (h : findNode l.ls el = none) : Hit l el = l := by
  simp only [Hit, MoveToFront, h]

theorem Remove_linked {l : LruCache K V} {el a : Nat} {e : Element K V}
    (hs : Sound l) (h : findNode l.ls el = some e)
    (hk : Load l.data e.Value.key = some a) :
    ∃ as bs, l.ls = as ++ e :: bs ∧ e.addr = el ∧
      Remove l el = some ({ l with ls := as ++ bs,
                                   data := Delete l.data e.Value.key,
                                   detached := e :: l.detached }, some e.Value) := by
  obtain ⟨ha, as, bs, hsplit⟩ := findNode_split h
  refine ⟨as, bs, hsplit, ha, ?_⟩
  have hn := hs.addrs
  rw [hsplit] at hn
  have h2 := unlink_mid hn
  rw [ha, ← hsplit] at h2
  simp only [Remove, getEntry, h, hk, listRemove, h2]

/-! ## Soundness is kept by every call -/

theorem mem_split_iff {α : Type} {ls as bs : List α} {e : α} (h : ls = as ++ e :: bs)
    (x : α) : x ∈ ls ↔ x = e ∨ x ∈ as ∨ x ∈ bs := by
  rw [h]
  simp only [List.mem_append, List.mem_cons]
  tauto

theorem Sound_Init (C : Int) : Sound (Init C : LruCache K V) := by
  constructor <;> simp [Init]
  exact le_of_lt

theorem Sound_present {l : LruCache K V} (en : CacheEntry K V) {el : Nat}
    {e : Element K V} {as bs : List (Element K V)}
    (hs : Sound l) (hsplit : l.ls = as ++ e :: bs) (ha : e.addr = el)
    (hk : e.Value.key = en.key) :
    Sound { l with ls := ⟨el, en⟩ :: (as ++ bs) } := by
  have hn := hs.addrs
  rw [hsplit] at hn
  have hmem := mem_split_iff hsplit
  constructor
  · have h1 := (List.perm_middle.map (fun x : Element K V => x.addr)).nodup_iff.1 hn
    simpa [ha] using h1
  · intro x hx
    dsimp only at hx ⊢
    rcases List.mem_cons.1 hx with rfl | hx
    · have h1 := hs.below e ((hmem e).2 (Or.inl rfl))
      rw [ha] at h1
      exact h1
    · exact hs.below x ((hmem x).2 (Or.inr (List.mem_append.1 hx)))
  · intro d hd
    refine ⟨(hs.apart d hd).1, ?_⟩
    intro x hx
    dsimp only at hx
    rcases List.mem_cons.1 hx with rfl | hx
    · have h1 := (hs.apart d hd).2 e ((hmem e).2 (Or.inl rfl))
      rw [ha] at h1
      exact h1
    · exact (hs.apart d hd).2 x ((hmem x).2 (Or.inr (List.mem_append.1 hx)))
  · exact hs.index_keys
  · intro k a hka
    obtain ⟨x, hx, hxa, hxk⟩ := hs.index_node k a hka
    dsimp only
    rcases (hmem x).1 hx with rfl | hx
    · exact ⟨⟨el, en⟩, List.mem_cons_self _ _, ha.symm.trans hxa, hk.symm.trans hxk⟩
    · exact ⟨x, List.mem_cons_of_mem _ (List.mem_append.2 hx), hxa, hxk⟩
  · intro hc
    have h1 := hs.bound hc
    rw [hsplit] at h1
    simp only [List.length_append, List.length_cons] at h1 ⊢
    omega

theorem Sound_pushFront {l : LruCache K V} {en : CacheEntry K V}
    (hs : Sound l) (hc : l.cap ≤ 0 ∨ (l.ls.length : Int) < l.cap) :
    Sound (pushFront l en) := by
  constructor
  · simp only [pushFront, List.map_cons, List.nodup_cons]
    refine ⟨?_, hs.addrs⟩
    intro hmem
    obtain ⟨x, hx, hxa⟩ := List.mem_map.1 hmem
    have := hs.below x hx
    omega
  · intro x hx
    simp only [pushFront] at hx ⊢
    rcases List.mem_cons.1 hx with rfl | hx
    · exact Nat.lt_succ_self _
    · exact Nat.lt_succ_of_lt (hs.below x hx)
  · intro d hd
    simp only [pushFront] at hd ⊢
    refine ⟨Nat.lt_succ_of_lt (hs.apart d hd).1, ?_⟩
    intro x hx
    rcases List.mem_cons.1 hx with rfl | hx
    · exact Nat.ne_of_gt (hs.apart d hd).1
    · exact (hs.apart d hd).2 x hx
  · exact nodup_Store _ _ hs.index_keys
  · intro k a hka
    simp only [pushFront, Store] at hka ⊢
    rcases List.mem_cons.1 hka with heq | hka
    · cases heq
      exact ⟨⟨l.fresh, en⟩, List.mem_cons_self _ _, rfl, rfl⟩
    · obtain ⟨x, hx, hxa, hxk⟩ := hs.index_node k a (mem_Delete.1 hka).1
      exact ⟨x, List.mem_cons_of_mem _ hx, hxa, hxk⟩
  · intro h0
    simp only [pushFront] at h0 ⊢
    simp only [List.length_cons]
    rcases hc with hc | hc
    · omega
    · push_cast
      omega

theorem Sound_full {l : LruCache K V} {en : CacheEntry K V}
    {init : List (Element K V)} {b : Element K V}
    (hs : Sound l) (hsplit : l.ls = init ++ [b]) :
    Sound { l with ls := ⟨b.addr, en⟩ :: init,
                   data := Store (Delete l.data b.Value.key) en.key b.addr } := by
  have hn := hs.addrs
  rw [hsplit] at hn
  have hmem := mem_split_iff hsplit
  constructor
  · have h1 := (List.perm_middle.map (fun x : Element K V => x.addr)).nodup_iff.1 hn
    simpa using h1
  · intro x hx
    dsimp only at hx ⊢
    rcases List.mem_cons.1 hx with rfl | hx
    · exact hs.below b ((hmem b).2 (Or.inl rfl))
    · exact hs.below x ((hmem x).2 (Or.inr (Or.inl hx)))
  · intro d hd
    refine ⟨(hs.apart d hd).1, ?_⟩
    intro x hx
    dsimp only at hx
    rcases List.mem_cons.1 hx with rfl | hx
    · exact (hs.apart d hd).2 b ((hmem b).2 (Or.inl rfl))
    · exact (hs.apart d hd).2 x ((hmem x).2 (Or.inr (Or.inl hx)))
  · exact nodup_Store _ _ (nodup_Delete _ hs.index_keys)
  · intro k a hka
    dsimp only at hka ⊢
    rcases List.mem_cons.1 hka with heq | hka
    · cases heq
      exact ⟨⟨b.addr, en⟩, List.mem_cons_self _ _, rfl, rfl⟩
    · have h1 := (mem_Delete.1 (mem_Delete.1 hka).1)
      obtain ⟨x, hx, hxa, hxk⟩ := hs.index_node k a h1.1
      rcases (hmem x).1 hx with rfl | hx | hx
      · exact absurd hxk h1.2.symm
      · exact ⟨x, List.mem_cons_of_mem _ hx, hxa, hxk⟩
      · cases hx
  · intro hc
    have h1 := hs.bound hc
    rw [hsplit] at h1
    simp only [List.length_append, List.length_cons, List.length_nil] at h1 ⊢
    omega

theorem Sound_Add {l : LruCache K V} (hs : Sound l) (en : CacheEntry K V) :
    Sound (Add l en).1 := by
  cases h : Load l.data en.key with
  | some el =>
    obtain ⟨e, as, bs, hsplit, ha, hk, hadd⟩ := Add_present hs h
    rw [hadd]
    exact Sound_present en hs hsplit ha hk
  | none =>
    by_cases hc : l.cap ≤ 0 ∨ (l.ls.length : Int) < l.cap
    · rw [Add_room h hc]
      exact Sound_pushFront hs hc
    · obtain ⟨init, b, hsplit, hadd⟩ := Add_full en hs h hc
      rw [hadd]
      exact Sound_full hs hsplit

theorem Sound_front {l : LruCache K V} {e : Element K V} {as bs : List (Element K V)}
    (hs : Sound l) (hsplit : l.ls = as ++ e :: bs) :
    Sound { l with ls := e :: (as ++ bs) } := by
  have h := Sound_present e.Value hs hsplit rfl rfl
  exact h

theorem Sound_Hit {l : LruCache K V} (hs : Sound l) (el : Nat) : Sound (Hit l el) := by
  cases h : findNode l.ls el with
  | none =>
    rw [Hit_unlinked h]
    exact hs
  | some e =>
    obtain ⟨as, bs, hsplit, _, hhit⟩ := Hit_linked hs h
    rw [hhit]
    exact Sound_front hs hsplit

theorem Sound_Delete {l : LruCache K V} (hs : Sound l) (k : K) :
    Sound { l with data := Delete l.data k } := by
  constructor
  · exact hs.addrs
  · exact hs.below
  · exact hs.apart
  · exact nodup_Delete _ hs.index_keys
  · intro k1 a hka
    exact hs.index_node k1 a (mem_Delete.1 hka).1
  · exact hs.bound

theorem Sound_unlink {l : LruCache K V} {e : Element K V} {as bs : List (Element K V)}
    (hs : Sound l) (hsplit : l.ls = as ++ e :: bs) :
    Sound { l with ls := as ++ bs,
                   data := Delete l.data e.Value.key,
                   detached := e :: l.detached } := by
  have hn := hs.addrs
  rw [hsplit] at hn
  have hmem := mem_split_iff hsplit
  have hne := addr_ne_of_nodup hn
  constructor
  · have h1 := (List.perm_middle.map (fun x : Element K V => x.addr)).nodup_iff.1 hn
    simp only [List.map_cons, List.nodup_cons] at h1
    exact h1.2
  · intro x hx
    exact hs.below x ((hmem x).2 (Or.inr (List.mem_append.1 hx)))
  · intro d hd
    dsimp only at hd ⊢
    rcases List.mem_cons.1 hd with rfl | hd
    · refine ⟨hs.below d ((hmem d).2 (Or.inl rfl)), ?_⟩
      intro x hx
      rcases List.mem_append.1 hx with hx | hx
      · exact hne.1 x hx
      · exact hne.2 x hx
    · refine ⟨(hs.apart d hd).1, ?_⟩
      intro x hx
      exact (hs.apart d hd).2 x ((hmem x).2 (Or.inr (List.mem_append.1 hx)))
  · exact nodup_Delete _ hs.index_keys
  · intro k a hka
    have h1 := mem_Delete.1 hka
    obtain ⟨x, hx, hxa, hxk⟩ := hs.index_node k a h1.1
    rcases (hmem x).1 hx with rfl | hx
    · exact absurd hxk h1.2.symm
    · exact ⟨x, List.mem_append.2 hx, hxa, hxk⟩
  · intro hc
    have h1 := hs.bound hc
    rw [hsplit] at h1
    simp only [List.length_append, List.length_cons] at h1 ⊢
    omega

theorem Sound_Remove {l : LruCache K V} (hs : Sound l) {el : Nat}
    {r : LruCache K V × Option (CacheEntry K V)} (h : Remove l el = some r) :
    Sound r.1 := by
  cases hf : findNode l.ls el with
  | some e =>
    cases hk : Load l.data e.Value.key with
    | none =>
      simp only [Remove, getEntry, hf, hk, Option.some.injEq] at h
      rw [← h]
      exact hs
    | some a =>
      obtain ⟨as, bs, hsplit, _, hrem⟩ := Remove_linked hs hf hk
      rw [hrem, Option.some.injEq] at h
      rw [← h]
      exact Sound_unlink hs hsplit
  | none =>
    cases hd : findNode l.detached el with
    | none => simp [Remove, getEntry, hf, hd] at h
    | some d =>
      cases hk : Load l.data d.Value.key with
      | none =>
        simp only [Remove, getEntry, hf, hd, Option.map_some', hk, Option.some.injEq] at h
        rw [← h]
        exact hs
      | some a =>
        simp only [Remove, getEntry, hf, hd, Option.map_some', hk, listRemove,
          Option.some.injEq] at h
        rw [← h]
        exact Sound_Delete hs _

theorem Sound_step {l l1 : LruCache K V} (hs : Sound l) {op : Op K V}
    (h : step l op = some l1) : Sound l1 := by
  cases op with
  | add en =>
    simp only [step, Option.some.injEq] at h
    rw [← h]
    exact Sound_Add hs en
  | hit el =>
    simp only [step, Option.some.injEq] at h
    rw [← h]
    exact Sound_Hit hs el
  | remove el =>
    simp only [step, Option.map_eq_some'] at h
    obtain ⟨r, hr, hr1⟩ := h
    rw [← hr1]
    exact Sound_Remove hs hr

theorem Sound_run {ops : List (Op K V)} {l l1 : LruCache K V} (hs : Sound l)
    (h : run l ops = some l1) : Sound l1 := by
  induction ops generalizing l with
  | nil =>
    simp only [run, Option.some.injEq] at h
    rw [← h]
    exact hs
  | cons op ops ih =>
    cases hstep : step l op with
    | none => simp [run, hstep] at h
    | some l2 =>
      simp only [run, hstep] at h
      exact ih (Sound_step hs hstep) h

theorem cap_Add (l : LruCache K V) (en : CacheEntry K V) : (Add l en).1.cap = l.cap := by
  unfold Add
  split
  · rfl
  · split
    · rfl
    · split <;> rfl

theorem cap_Remove {l : LruCache K V} {el : Nat}
    {r : LruCache K V × Option (CacheEntry K V)} (h : Remove l el = some r) :
    r.1.cap = l.cap := by
  unfold Remove at h
  split at h
  · cases h
  · split at h
    · cases h
      rfl
    · cases h
      simp only [listRemove]
      split <;> rfl

theorem cap_step {l l1 : LruCache K V} {op : Op K V} (h : step l op = some l1) :
    l1.cap = l.cap := by
  cases op with
  | add en =>
    simp only [step, Option.some.injEq] at h
    rw [← h]
    exact cap_Add l en
  | hit el =>
    simp only [step, Option.some.injEq] at h
    rw [← h]
    rfl
  | remove el =>
    simp only [step, Option.map_eq_some'] at h
    obtain ⟨r, hr, hr1⟩ := h
    rw [← hr1]
    exact cap_Remove hr

theorem cap_run {ops : List (Op K V)} {l l1 : LruCache K V} (h : run l ops = some l1) :
    l1.cap = l.cap := by
  induction ops generalizing l with
  | nil =>
    simp only [run, Option.some.injEq] at h
    rw [← h]
  | cons op ops ih =>
    cases hstep : step l op with
    | none => simp [run, hstep] at h
    | some l2 =>
      simp only [run, hstep] at h
      rw [ih h, cap_step hstep]

theorem Sound.addr_inj {l : LruCache K V} (hs : Sound l) {x y : Element K V}
    (hx : x ∈ l.ls) (hy : y ∈ l.ls) (h : x.addr = y.addr) : x = y :=
  List.inj_on_of_nodup_map hs.addrs hx hy h

theorem Sound.index_le {l : LruCache K V} (hs : Sound l) :
    l.data.length ≤ l.ls.length := by
  have hnd : (l.data.map Prod.snd).Nodup := by
    refine List.Nodup.map_on ?_ (List.Nodup.of_map _ hs.index_keys)
    intro p hp q hq hpq
    obtain ⟨x, hx, hxa, hxk⟩ := hs.index_node p.1 p.2 hp
    obtain ⟨y, hy, hya, hyk⟩ := hs.index_node q.1 q.2 hq
    have hxy : x = y := hs.addr_inj hx hy (by rw [hxa, hya, hpq])
    have hk : p.1 = q.1 := by rw [← hxk, ← hyk, hxy]
    exact Prod.ext hk hpq
  have hsub : l.data.map Prod.snd ⊆ l.ls.map (fun e => e.addr) := by
    intro a ha
    obtain ⟨p, hp, hpa⟩ := List.mem_map.1 ha
    obtain ⟨x, hx, hxa, _⟩ := hs.index_node p.1 p.2 hp
    exact List.mem_map.2 ⟨x, hx, hxa.trans hpa⟩
  have h := (List.subperm_of_subset hnd hsub).length_le
  simpa using h

/-! ## Coherence is kept by every call on a linked node -/

theorem Coherent.key_inj {l : LruCache K V} (hc : Coherent l) {x y : Element K V}
    (hx : x ∈ l.ls) (hy : y ∈ l.ls) (h : x.Value.key = y.Value.key) : x = y := by
  have h1 := Load_of_mem hc.sound.index_keys (hc.node_index x hx)
  have h2 := Load_of_mem hc.sound.index_keys (hc.node_index y hy)
  rw [h, h2, Option.some.injEq] at h1
  exact hc.sound.addr_inj hx hy h1.symm

theorem Coherent_Init (C : Int) : Coherent (Init C : LruCache K V) :=
  ⟨Sound_Init C, by simp [Init]⟩

theorem mem_Store {m : List (K × Nat)} {k : K} {el : Nat} {p : K × Nat} :
    p ∈ Store m k el ↔ p = (k, el) ∨ (p ∈ m ∧ p.1 ≠ k) := by
  simp only [Store, List.mem_cons, mem_Delete]

theorem Coherent_Add {l : LruCache K V} (hc : Coherent l) (en : CacheEntry K V) :
    Coherent (Add l en).1 := by
  refine ⟨Sound_Add hc.sound en, ?_⟩
  have hs := hc.sound
  cases h : Load l.data en.key with
  | some el =>
    obtain ⟨e, as, bs, hsplit, ha, hk, hadd⟩ := Add_present hs h
    rw [hadd]
    intro x hx
    dsimp only at hx ⊢
    rcases List.mem_cons.1 hx with rfl | hx
    · exact mem_of_Load h
    · exact hc.node_index x ((mem_split_iff hsplit x).2 (Or.inr (List.mem_append.1 hx)))
  | none =>
    have hfree : ∀ x ∈ l.ls, x.Value.key ≠ en.key := by
      intro x hx heq
      have h1 := hc.node_index x hx
      rw [heq] at h1
      exact Load_eq_none.1 h _ h1
    by_cases hcap : l.cap ≤ 0 ∨ (l.ls.length : Int) < l.cap
    · rw [Add_room h hcap]
      intro x hx
      simp only [pushFront] at hx ⊢
      rcases List.mem_cons.1 hx with rfl | hx
      · exact mem_Store.2 (Or.inl rfl)
      · exact mem_Store.2 (Or.inr ⟨hc.node_index x hx, hfree x hx⟩)
    · obtain ⟨init, b, hsplit, hadd⟩ := Add_full en hs h hcap
      rw [hadd]
      intro x hx
      dsimp only at hx ⊢
      rcases List.mem_cons.1 hx with rfl | hx
      · exact mem_Store.2 (Or.inl rfl)
      · have hxl : x ∈ l.ls := (mem_split_iff hsplit x).2 (Or.inr (Or.inl hx))
        have hbl : b ∈ l.ls := (mem_split_iff hsplit b).2 (Or.inl rfl)
        have hn := hs.addrs
        rw [hsplit] at hn
        have hxb : x.Value.key ≠ b.Value.key := by
          intro heq
          have := hc.key_inj hxl hbl heq
          exact (addr_ne_of_nodup hn).1 x hx (by rw [this])
        exact mem_Store.2 (Or.inr ⟨mem_Delete.2 ⟨hc.node_index x hxl, hxb⟩, hfree x hxl⟩)

theorem Coherent_Hit {l : LruCache K V} (hc : Coherent l) (el : Nat) :
    Coherent (Hit l el) := by
  refine ⟨Sound_Hit hc.sound el, ?_⟩
  cases h : findNode l.ls el with
  | none =>
    rw [Hit_unlinked h]
    exact hc.node_index
  | some e =>
    obtain ⟨as, bs, hsplit, _, hhit⟩ := Hit_linked hc.sound h
    rw [hhit]
    intro x hx
    have hxl : x ∈ l.ls := by
      rw [mem_split_iff hsplit x]
      rcases List.mem_cons.1 hx with rfl | hx
      · exact Or.inl rfl
      · exact Or.inr (List.mem_append.1 hx)
    exact hc.node_index x hxl

theorem Coherent_Remove {l : LruCache K V} (hc : Coherent l) {el : Nat}
    (hl : linked l el = true) :
    ∃ r, Remove l el = some r ∧ Coherent r.1 := by
  have hs := hc.sound
  cases hf : findNode l.ls el with
  | none => simp [linked, hf] at hl
  | some e =>
    obtain ⟨_, as0, bs0, hsplit0⟩ := findNode_split hf
    have hel : e ∈ l.ls := (mem_split_iff hsplit0 e).2 (Or.inl rfl)
    have hk := Load_of_mem hs.index_keys (hc.node_index e hel)
    obtain ⟨as, bs, hsplit, _, hrem⟩ := Remove_linked hs hf hk
    refine ⟨_, hrem, Sound_unlink hs hsplit, ?_⟩
    intro x hx
    dsimp only at hx ⊢
    have hxl : x ∈ l.ls := (mem_split_iff hsplit x).2 (Or.inr (List.mem_append.1 hx))
    have hn := hs.addrs
    rw [hsplit] at hn
    have hne := addr_ne_of_nodup hn
    have hxe : x.Value.key ≠ e.Value.key := by
      intro heq
      have := hc.key_inj hxl hel heq
      rcases List.mem_append.1 hx with hx | hx
      · exact hne.1 x hx (by rw [this])
      · exact hne.2 x hx (by rw [this])
    exact mem_Delete.2 ⟨hc.node_index x hxl, hxe⟩

theorem Coherent_step {l : LruCache K V} (hc : Coherent l) {op : Op K V}
    (hl : liveOp l op = true) : ∃ l1, step l op = some l1 ∧ Coherent l1 := by
  cases op with
  | add en => exact ⟨_, rfl, Coherent_Add hc en⟩
  | hit el => exact ⟨_, rfl, Coherent_Hit hc el⟩
  | remove el =>
    obtain ⟨r, hr, hcr⟩ := Coherent_Remove hc hl
    exact ⟨r.1, by simp [step, hr], hcr⟩

theorem Coherent_run {ops : List (Op K V)} {l : LruCache K V} (hc : Coherent l)
    (hl : liveRun l ops = true) : ∃ l1, run l ops = some l1 ∧ Coherent l1 := by
  induction ops generalizing l with
  | nil => exact ⟨l, rfl, hc⟩
  | cons op ops ih =>
    simp only [liveRun, Bool.and_eq_true] at hl
    obtain ⟨l2, hstep, hc2⟩ := Coherent_step hc hl.1
    have hl2 := hl.2
    simp only [hstep] at hl2
    obtain ⟨l1, hrun, hc1⟩ := ih hc2 hl2
    exact ⟨l1, by simp only [run, hstep, hrun], hc1⟩

theorem liveRun_take {ops : List (Op K V)} {l : LruCache K V}
    (hl : liveRun l ops = true) (n : Nat) : liveRun l (ops.take n) = true := by
  induction ops generalizing l n with
  | nil => simp [liveRun]
  | cons op ops ih =>
    cases n with
    | zero => simp [liveRun]
    | succ n =>
      simp only [liveRun, Bool.and_eq_true, List.take_succ_cons] at hl ⊢
      refine ⟨hl.1, ?_⟩
      cases hstep : step l op with
      | none => simp [hstep] at hl
      | some l2 =>
        have hl2 := hl.2
        simp only [hstep] at hl2 ⊢
        exact ih hl2 n

theorem Coherent.consistent {l : LruCache K V} (hc : Coherent l) : Consistent l := by
  have hs := hc.sound
  constructor
  · intro k el h
    exact hs.index_node k el (mem_of_Load h)
  · intro e he k
    constructor
    · intro h
      obtain ⟨x, hx, hxa, hxk⟩ := hs.index_node k _ (mem_of_Load h)
      rw [← hxk, hs.addr_inj hx he hxa]
    · intro h
      rw [h]
      exact Load_of_mem hs.index_keys (hc.node_index e he)
  · exact hs.addrs
  · refine List.Nodup.map_on ?_ (List.Nodup.of_map _ hs.addrs)
    intro x hx y hy hxy
    exact hc.key_inj hx hy hxy

theorem Coherent.index_size {l : LruCache K V} (hc : Coherent l) :
    l.data.length = l.ls.length := by
  apply Nat.le_antisymm hc.sound.index_le
  have hnd : (l.ls.map (fun e => (e.Value.key, e.addr))).Nodup := by
    refine List.Nodup.map_on ?_ (List.Nodup.of_map _ hc.sound.addrs)
    intro x hx y hy hxy
    exact hc.sound.addr_inj hx hy (congrArg Prod.snd hxy)
  have hsub : l.ls.map (fun e => (e.Value.key, e.addr)) ⊆ l.data := by
    intro p hp
    obtain ⟨x, hx, hxp⟩ := List.mem_map.1 hp
    rw [← hxp]
    exact hc.node_index x hx
  have h := (List.subperm_of_subset hnd hsub).length_le
  simpa using h

theorem Add_present_effect (l : LruCache K V) (en : CacheEntry K V) (el : Nat)
    (hs : Sound l) (h : Load l.data en.key = some el) :
    (Add l en).2 = none ∧
    (Add l en).1.data = l.data ∧
    (Add l en).1.ls.length = l.ls.length ∧
    (Add l en).1.keys.Perm l.keys ∧
    (Add l en).1.ls = ⟨el, en⟩ :: unlink l.ls el ∧
    Get (Add l en).1 en.key = some el ∧
    getEntry (Add l en).1 el = some en := by
  obtain ⟨e, as, bs, hsplit, ha, hk, hadd⟩ := Add_present hs h
  have hn := hs.addrs
  rw [hsplit] at hn
  have hun : unlink l.ls el = as ++ bs := by
    rw [hsplit, ← ha]
    exact unlink_mid hn
  refine ⟨?_, ?_, ?_, ?_, ?_, ?_, ?_⟩
  · rw [hadd]
  · rw [hadd]
  · rw [hadd, hsplit]
    simp only [List.length_append, List.length_cons]
    omega
  · rw [hadd]
    simp only [keys, hsplit, List.map_cons, List.map_append]
    rw [← hk]
    exact List.perm_middle.symm
  · rw [hadd, hun]
  · rw [hadd]
    exact h
  · rw [hadd]
    simp [getEntry, findNode]

/-! ## The claims on the container -/

/-- C1: capacity invariant.  For every capacity `C > 0` and every sequence of
`Add`, `Hit` and `Remove` calls applied to `Init(C)`, with arbitrary node
arguments (linked, unlinked or reused), the length of the recency list and
the size of the index are at most `C` after each call, that is in the state
every prefix of the sequence reaches. -/
theorem capacity_invariant (C : Int) (hC : 0 < C) (ops : List (Op K V)) (n : Nat)
    (l : LruCache K V) (h : run (Init C) (ops.take n) = some l) :
    (l.ls.length : Int) ≤ C ∧ (l.data.length : Int) ≤ C := by
  have hs : Sound l := Sound_run (Sound_Init C) h
  have hcap : l.cap = C := cap_run h
  have h1 : (l.ls.length : Int) ≤ C := by
    have := hs.bound (by rw [hcap]; exact hC)
    rwa [hcap] at this
  refine ⟨h1, ?_⟩
  have h2 := hs.index_le
  omega

/-- C2: eviction of the least recently used entry.  In a coherent container
of capacity `C > 0` that holds `C` entries, `Add` of an entry whose key is
absent returns the entry of the back node, unbinds that key in the index,
binds the new key to the reused node, leaves every other binding alone, puts
the new entry in front of the remaining nodes in their old order, and keeps
the list length and the index size equal to `C`. -/
theorem Add_evicts_back (l : LruCache K V) (en : CacheEntry K V)
    (hc : Coherent l) (hcap : 0 < l.cap) (hfull : (l.ls.length : Int) = l.cap)
    (habs : Load l.data en.key = none) :
    ∃ init b, l.ls = init ++ [b] ∧
      (Add l en).2 = some b.Value ∧
      Load (Add l en).1.data b.Value.key = none ∧
      Load (Add l en).1.data en.key = some b.addr ∧
      (∀ k, k ≠ b.Value.key → k ≠ en.key →
        Load (Add l en).1.data k = Load l.data k) ∧
      (Add l en).1.ls = ⟨b.addr, en⟩ :: init ∧
      ((Add l en).1.ls.length : Int) = l.cap ∧
      ((Add l en).1.data.length : Int) = l.cap := by
  have hnot : ¬ (l.cap ≤ 0 ∨ (l.ls.length : Int) < l.cap) := by
    intro h
    rcases h with h | h <;> omega
  obtain ⟨init, b, hsplit, hadd⟩ := Add_full en hc.sound habs hnot
  have hc2 : Coherent (Add l en).1 := Coherent_Add hc en
  have hsize := hc2.index_size
  rw [hadd] at hc2 hsize
  have hbl : b ∈ l.ls := by rw [hsplit]; simp
  have hbk : b.Value.key ≠ en.key := by
    intro heq
    have h1 := hc.node_index b hbl
    rw [heq] at h1
    exact Load_eq_none.1 habs _ h1
  have hlen : ((⟨b.addr, en⟩ :: init : List (Element K V)).length : Int) = l.cap := by
    rw [← hfull, hsplit]
    simp
  refine ⟨init, b, hsplit, ?_, ?_, ?_, ?_, ?_, ?_, ?_⟩
  · rw [hadd]
  · rw [hadd]
    dsimp only
    rw [Load_Store_ne _ _ hbk]
    exact Load_Delete_self _ _
  · rw [hadd]
    exact Load_Store_self _ _ _
  · intro k hk1 hk2
    rw [hadd]
    dsimp only
    rw [Load_Store_ne _ _ hk2, Load_Delete_ne _ hk1]
  · rw [hadd]
  · rw [hadd]
    exact hlen
  · rw [hadd]
    dsimp only at hsize ⊢
    rw [hsize]
    exact hlen

/-- C3: promotion is respected by eviction.  With four pairwise distinct keys
`a, b, c, d` and capacity 2: the calls `Add(a)`, `Add(b)` evict nothing,
`Add(c)` returns the entry of `a` and leaves exactly `c, b` in the list and
in the index; after `Hit` on the node of `b`, `Add(d)` returns the entry of
`c` and leaves exactly `d, b`. -/
theorem promotion_respected (ea eb ec ed : CacheEntry K V)
    (hab : ea.key ≠ eb.key) (hac : ea.key ≠ ec.key) (had : ea.key ≠ ed.key)
    (hbc : eb.key ≠ ec.key) (hbd : eb.key ≠ ed.key) (hcd : ec.key ≠ ed.key) :
    (Add (Init 2) ea).2 = none ∧
    (Add (Add (Init 2) ea).1 eb).2 = none ∧
    Add (Add (Add (Init 2) ea).1 eb).1 ec =
      ({ cap := 2, ls := [⟨0, ec⟩, ⟨1, eb⟩], data := [(ec.key, 0), (eb.key, 1)],
         detached := [], fresh := 2 }, some ea) ∧
    Get (Add (Add (Add (Init 2) ea).1 eb).1 ec).1 eb.key = some 1 ∧
    Add (Hit (Add (Add (Add (Init 2) ea).1 eb).1 ec).1 1) ed =
      ({ cap := 2, ls := [⟨0, ed⟩, ⟨1, eb⟩], data := [(ed.key, 0), (eb.key, 1)],
         detached := [], fresh := 2 }, some ec) := by
  have hba := hab.symm
  have hca := hac.symm
  have hda := had.symm
  have hcb := hbc.symm
  have hdb := hbd.symm
  have hdc := hcd.symm
  simp [Add, Init, Load, pushFront, Store, Delete, Back, setEntry, setValue,
    MoveToFront, findNode, unlink, Hit, Get, List.filter, List.find?, *]

/-- C4: `Add` of an entry whose key is present.  In a sound container, when
the index binds the key of `en` to the node `el`, `Add(en)` returns `nil`,
leaves the index as it was, keeps the length and the keys of the list, makes
the node `el`, now holding `en`, the first one, followed by the other nodes
in their old order, and a following `Get` of the key finds `en`. -/
theorem Add_present_key (l : LruCache K V) (en : CacheEntry K V) (el : Nat)
    (hs : Sound l) (h : Load l.data en.key = some el) :
    (Add l en).2 = none ∧
    (Add l en).1.data = l.data ∧
    (Add l en).1.ls.length = l.ls.length ∧
    (Add l en).1.keys.Perm l.keys ∧
    (Add l en).1.ls = ⟨el, en⟩ :: unlink l.ls el ∧
    Get (Add l en).1 en.key = some el ∧
    getEntry (Add l en).1 el = some en :=
  Add_present_effect l en el hs h

/-- C5: index/list consistency.  For every sequence of `Add`, `Hit` and
`Remove` calls on `Init(C)` in which `Hit` and `Remove` are given nodes that
are linked at that moment, every prefix of the sequence runs without panic
and reaches a state in which the index and the list are consistent. -/
theorem index_list_consistency (C : Int) (ops : List (Op K V))
    (hl : liveRun (Init C) ops = true) (n : Nat) :
    ∃ l, run (Init C) (ops.take n) = some l ∧ Consistent l := by
  obtain ⟨l, hrun, hc⟩ := Coherent_run (Coherent_Init C) (liveRun_take hl n)
  exact ⟨l, hrun, hc.consistent⟩

end LruCache

/-! ## The loading cache -/

namespace LoadingCache

variable {K V : Type} [DecidableEq K]

theorem checkRefreshAfterWrite_frame (env : Env K V) (g : LoadingCache K V)
    (en : CacheEntry K V) :
    (checkRefreshAfterWrite env g en).lruContainer = g.lruContainer ∧
    (checkRefreshAfterWrite env g en).loads = g.loads ∧
    (checkRefreshAfterWrite env g en).stats = g.stats ∧
    (checkRefreshAfterWrite env g en).hitEvent = g.hitEvent ∧
    (checkRefreshAfterWrite env g en).addEvent = g.addEvent ∧
    (checkRefreshAfterWrite env g en).removeEvent = g.removeEvent := by
  unfold checkRefreshAfterWrite now
  split
  · dsimp only
    split
    · split <;> simp
    · simp
  · simp

/-- In a sound container the node the index gives for a key is linked and
its entry carries the key. -/
theorem entry_of_Get {l : LruCache K V} (hs : l.Sound) {key : K}
    {el : Nat} (hget : l.Get key = some el) :
    ∃ e as bs, l.ls = as ++ e :: bs ∧ e.addr = el ∧ e.Value.key = key ∧
      l.getEntry el = some e.Value := by
  obtain ⟨e, he, ha, hk⟩ := hs.index_node _ _ (mem_of_Load hget)
  obtain ⟨as, bs, hsplit⟩ := List.append_of_mem he
  refine ⟨e, as, bs, hsplit, ha, hk, ?_⟩
  have hn := hs.addrs
  rw [hsplit] at hn
  have hf := findNode_mid hn
  rw [← hsplit, ha] at hf
  simp only [LruCache.getEntry, hf]

/-- C7: the expiration predicate.  `isExpired` holds exactly when the access
threshold is positive and the access time is strictly before
`now - expireAfterAccess`, or the write threshold is positive and the write
time is strictly before `now - expireAfterWrite`; a threshold of zero
switches its test off, and with both thresholds zero nothing is expired. -/
theorem isExpired_iff (g : LoadingCache K V) (en : CacheEntry K V) (now : Time) :
    (isExpired g en now = true ↔
      (0 < g.expireAfterAccess ∧ en.access < now - g.expireAfterAccess) ∨
      (0 < g.expireAfterWrite ∧ en.write < now - g.expireAfterWrite)) ∧
    (g.expireAfterAccess = 0 →
      (isExpired g en now = true ↔
        (0 < g.expireAfterWrite ∧ en.write < now - g.expireAfterWrite))) ∧
    (g.expireAfterWrite = 0 →
      (isExpired g en now = true ↔
        (0 < g.expireAfterAccess ∧ en.access < now - g.expireAfterAccess))) ∧
    (g.expireAfterAccess = 0 → g.expireAfterWrite = 0 → isExpired g en now = false) := by
  have key : isExpired g en now = true ↔
      (0 < g.expireAfterAccess ∧ en.access < now - g.expireAfterAccess) ∨
      (0 < g.expireAfterWrite ∧ en.write < now - g.expireAfterWrite) := by
    unfold isExpired
    simp only [gt_iff_lt, ← sub_eq_add_neg]
    split
    · simp only [true_iff]
      left
      assumption
    · split
      · simp only [true_iff]
        right
        assumption
      · simp only [Bool.false_eq_true, false_iff]
        intro h
        rcases h with h | h <;> contradiction
  refine ⟨key, ?_, ?_, ?_⟩
  · intro h0
    rw [key, h0]
    simp
  · intro h0
    rw [key, h0]
    simp
  · intro h1 h2
    rw [← Bool.not_eq_true, key, h1, h2]
    simp

theorem loadInfo_ok (env : Env K V) (g : LoadingCache K V) (key : K)
    (loader : Nat → K → Except Error V) (w : V)
    (hl : env.loader = some loader) (hfree : key ∉ g.singleFight.m)
    (hok : loader g.loads key = .ok w) :
    ∃ g1, loadInfo env g key = some (.ok w, g1) ∧
      g1.loads = g.loads + 1 ∧
      g1.lruContainer = (LruCache.Add g.lruContainer
        ⟨key, w, env.now (g.clock + 1), env.now (g.clock + 1 + 1)⟩).1 ∧
      g1.removeEvent = (match (LruCache.Add g.lruContainer
          ⟨key, w, env.now (g.clock + 1), env.now (g.clock + 1 + 1)⟩).2 with
        | some removeEn => g.removeEvent ++ [removeEn]
        | none => g.removeEvent) ∧
      g1.stats = g.stats.RecordLoadSuccess
        (Sub (env.now (g.clock + 1 + 1 + 1)) (env.now g.clock)) ∧
      g1.hitEvent = g.hitEvent := by
  simp only [loadInfo, hl, fight, hfree, if_false, loadFn, now, hok]
  exact ⟨_, rfl, rfl, rfl, rfl, rfl, rfl⟩

theorem loadInfo_error (env : Env K V) (g : LoadingCache K V) (key : K)
    (loader : Nat → K → Except Error V) (e : Error)
    (hl : env.loader = some loader) (hfree : key ∉ g.singleFight.m)
    (herr : loader g.loads key = .error e) :
    ∃ g1, loadInfo env g key = some (.error e, g1) ∧
      g1.loads = g.loads + 1 ∧
      g1.lruContainer = g.lruContainer ∧
      g1.stats = g.stats.RecordLoadError (Sub (env.now (g.clock + 1)) (env.now g.clock)) ∧
      g1.hitEvent = g.hitEvent ∧
      g1.removeEvent = g.removeEvent ∧
      g1.addEvent = g.addEvent := by
  simp only [loadInfo, hl, fight, hfree, if_false, loadFn, now, herr]
  exact ⟨_, rfl, rfl, rfl, rfl, rfl, rfl, rfl⟩

theorem fresh_hit_effect (env : Env K V) (g : LoadingCache K V) (key : K)
    (f : Option (V → Bool)) (el : Nat) (entry : CacheEntry K V)
    (hs : g.lruContainer.Sound)
    (hget : g.lruContainer.Get key = some el)
    (hen : g.lruContainer.getEntry el = some entry)
    (hfresh : isExpired g entry (env.now g.clock) = false)
    (hf : stale f entry.value = false) :
    ∃ g1 t, GetWithExpiredFunc env g key f = some (.ok entry.value, g1) ∧
      g1.loads = g.loads ∧
      g1.stats = g.stats ∧
      g1.hitEvent = g.hitEvent ++ [el] ∧
      g1.lruContainer.data = g.lruContainer.data ∧
      g1.lruContainer.ls = setValue g.lruContainer.ls el { entry with access := t } ∧
      g1.lruContainer.ls.map (fun e => (e.addr, e.Value.key, e.Value.value, e.Value.write))
        = g.lruContainer.ls.map
            (fun e => (e.addr, e.Value.key, e.Value.value, e.Value.write)) ∧
      g1.lruContainer.getEntry el = some { entry with access := t } := by
  obtain ⟨e, as, bs, hsplit, ha, hk, hen2⟩ := entry_of_Get hs hget
  rw [hen, Option.some.injEq] at hen2
  have hn := hs.addrs
  rw [hsplit] at hn
  obtain ⟨hfr1, hfr2, hfr3, hfr4, _, _⟩ :=
    checkRefreshAfterWrite_frame env { g with clock := g.clock + 1 } entry
  have hexp : isExpired { g with clock := g.clock + 1 } entry (env.now g.clock) = false :=
    hfresh
  obtain ⟨gr, hgr⟩ : ∃ gr, gr = checkRefreshAfterWrite env { g with clock := g.clock + 1 } entry :=
    ⟨_, rfl⟩
  rw [← hgr] at hfr1 hfr2 hfr3 hfr4
  dsimp only at hfr1 hfr2 hfr3 hfr4
  obtain ⟨t, ht⟩ : ∃ t, t = env.now gr.clock := ⟨_, rfl⟩
  have hres : GetWithExpiredFunc env g key f = some (.ok entry.value,
      { gr with clock := gr.clock + 1,
                lruContainer := gr.lruContainer.setEntry el { entry with access := t },
                hitEvent := gr.hitEvent ++ [el] }) := by
    simp only [GetWithExpiredFunc, hget, hen, now, hexp, hf, Bool.or_self,
      Bool.false_eq_true, if_false, ← hgr, ← ht]
  refine ⟨_, t, hres, ?_, ?_, ?_, ?_, ?_, ?_, ?_⟩
  · exact hfr2
  · exact hfr3
  · simp only [hfr4]
  · simp only [LruCache.setEntry, hfr1]
  · simp only [LruCache.setEntry, hfr1]
  · simp only [LruCache.setEntry, hfr1]
    rw [hsplit, ← ha, setValue_mid _ hn, hen2]
    simp
  · simp only [LruCache.setEntry, hfr1, LruCache.getEntry]
    rw [hsplit, ← ha, setValue_mid _ hn]
    have hn2 : ((as ++ (⟨e.addr, { entry with access := t }⟩ : Element K V) :: bs).map
        (fun x => x.addr)).Nodup := by
      simpa using hn
    rw [findNode_mid (e := ⟨e.addr, _⟩) hn2]

theorem Add_then_Get {l : LruCache K V} (hs : l.Sound) (en : CacheEntry K V) :
    ∃ el, (LruCache.Add l en).1.Get en.key = some el ∧
      (LruCache.Add l en).1.getEntry el = some en := by
  cases h : Load l.data en.key with
  | some el =>
    obtain ⟨_, _, _, _, _, h6, h7⟩ := LruCache.Add_present_effect l en el hs h
    exact ⟨el, h6, h7⟩
  | none =>
    by_cases hc : l.cap ≤ 0 ∨ (l.ls.length : Int) < l.cap
    · rw [LruCache.Add_room h hc]
      refine ⟨l.fresh, ?_, ?_⟩
      · exact Load_Store_self _ _ _
      · simp [LruCache.getEntry, LruCache.pushFront, findNode]
    · obtain ⟨init, b, _, hadd⟩ := LruCache.Add_full en hs h hc
      rw [hadd]
      refine ⟨b.addr, ?_, ?_⟩
      · exact Load_Store_self _ _ _
      · simp [LruCache.getEntry, findNode]

/-- The round trip on an absent key: `Put(k, v)` inserts an entry stamped
with the two readings of the clock it makes, and when that entry is not
expired at the reading the following `Get(k)` makes, the `Get` returns `v`
with no error and no invocation of the loader. -/
theorem Put_Get_absent (env : Env K V) (g : LoadingCache K V) (key : K) (v : V)
    (hs : g.lruContainer.Sound)
    (habs : g.lruContainer.Get key = none)
    (hfresh : isExpired g ⟨key, v, env.now (g.clock + 1), env.now g.clock⟩
      (env.now (g.clock + 1 + 1)) = false) :
    ∃ g1 g2, Put env g key v = some g1 ∧
      Get env g1 key = some (.ok v, g2) ∧ g2.loads = g.loads := by
  obtain ⟨el, h1, h2⟩ :=
    Add_then_Get hs (⟨key, v, env.now (g.clock + 1), env.now g.clock⟩ : CacheEntry K V)
  have hs2 := LruCache.Sound_Add hs
    (⟨key, v, env.now (g.clock + 1), env.now g.clock⟩ : CacheEntry K V)
  have hput : Put env g key v = some
      { g with clock := g.clock + 1 + 1,
               lruContainer := (LruCache.Add g.lruContainer
                 ⟨key, v, env.now (g.clock + 1), env.now g.clock⟩).1 } := by
    simp only [Put, habs, now]
  obtain ⟨g2, t, hres, hloads, _⟩ :=
    fresh_hit_effect env
      { g with clock := g.clock + 1 + 1,
               lruContainer := (LruCache.Add g.lruContainer
                 ⟨key, v, env.now (g.clock + 1), env.now g.clock⟩).1 }
      key none el ⟨key, v, env.now (g.clock + 1), env.now g.clock⟩ hs2 h1 h2 hfresh rfl
  exact ⟨_, g2, hput, hres, hloads⟩

/-- The round trip on a present key: `Put(k, v)` overwrites the value and
keeps the time stamps, and when the entry is not expired at the reading the
following `Get(k)` makes, the `Get` returns `v` with no error and no
invocation of the loader. -/
theorem Put_Get_present_fresh (env : Env K V) (g : LoadingCache K V) (key : K) (v : V)
    (el : Nat) (en : CacheEntry K V)
    (hs : g.lruContainer.Sound)
    (hget : g.lruContainer.Get key = some el)
    (hen : g.lruContainer.getEntry el = some en)
    (hfresh : isExpired g en (env.now g.clock) = false) :
    ∃ g1 g2, Put env g key v = some g1 ∧
      Get env g1 key = some (.ok v, g2) ∧ g2.loads = g.loads := by
  obtain ⟨e, as, bs, hsplit, ha, hk, hen2⟩ := entry_of_Get hs hget
  rw [hen, Option.some.injEq] at hen2
  have hput : Put env g key v = some
      { g with lruContainer := g.lruContainer.setEntry el { en with value := v } } := by
    simp only [Put, hget, hen]
  have hn := hs.addrs
  rw [hsplit] at hn
  have hd : setValue g.lruContainer.detached el { en with value := v }
      = g.lruContainer.detached :=
    setValue_absent _ (fun d hd heq =>
      (hs.apart d hd).2 e (by rw [hsplit]; simp) (ha.trans heq.symm))
  have hls : setValue g.lruContainer.ls el { en with value := v }
      = as ++ ⟨e.addr, { en with value := v }⟩ :: bs := by
    rw [hsplit, ← ha]
    exact setValue_mid _ hn
  have hshape : g.lruContainer.setEntry el { en with value := v }
      = { g.lruContainer with ls := as ++ ⟨e.addr, { en with value := v }⟩ :: bs } := by
    simp only [LruCache.setEntry, hd, hls]
  have hn2 : ((as ++ (⟨e.addr, { en with value := v }⟩ : Element K V) :: bs).map
      (fun x => x.addr)).Nodup := by
    simpa using hn
  have hs2 : (g.lruContainer.setEntry el { en with value := v }).Sound := by
    rw [hshape]
    constructor
    · exact hn2
    · intro x hx
      dsimp only at hx ⊢
      rcases (LruCache.mem_split_iff rfl x).1 hx with rfl | hx
      · exact hs.below e (by rw [hsplit]; simp)
      · exact hs.below x ((LruCache.mem_split_iff hsplit x).2 (Or.inr hx))
    · intro d hd2
      refine ⟨(hs.apart d hd2).1, ?_⟩
      intro x hx
      dsimp only at hx
      rcases (LruCache.mem_split_iff rfl x).1 hx with rfl | hx
      · exact (hs.apart d hd2).2 e (by rw [hsplit]; simp)
      · exact (hs.apart d hd2).2 x ((LruCache.mem_split_iff hsplit x).2 (Or.inr hx))
    · exact hs.index_keys
    · intro k a hka
      obtain ⟨x, hx, hxa, hxk⟩ := hs.index_node k a hka
      dsimp only
      rcases (LruCache.mem_split_iff hsplit x).1 hx with rfl | hx
      · refine ⟨⟨x.addr, { en with value := v }⟩, by simp, hxa, ?_⟩
        rw [← hxk, hen2]
      · exact ⟨x, (LruCache.mem_split_iff rfl x).2 (Or.inr hx), hxa, hxk⟩
    · intro hc
      have h1 := hs.bound hc
      rw [hsplit] at h1
      simpa using h1
  have hget2 : (g.lruContainer.setEntry el { en with value := v }).Get key = some el := hget
  have hen3 : (g.lruContainer.setEntry el { en with value := v }).getEntry el
      = some { en with value := v } := by
    rw [hshape]
    simp only [LruCache.getEntry]
    rw [← ha, findNode_mid hn2]
  obtain ⟨g2, t, hres, hloads, _⟩ :=
    fresh_hit_effect env
      { g with lruContainer := g.lruContainer.setEntry el { en with value := v } }
      key none el _ hs2 hget2 hen3 hfresh rfl
  exact ⟨_, g2, hput, hres, hloads⟩

/-- C9: forced reload in place.  In a cache whose container is sound, when
the key is present and its entry is expired or the custom predicate holds of
the cached value, no call for the key is in flight and the next invocation
of the loader returns the value `w`, `GetWithExpiredFunc` returns `w` with no
error after exactly one invocation of the loader; afterwards the index is the
same, the key is bound to the same node, which holds `w`, the list has the
same length and the same keys, and nothing was sent on the remove channel. -/
theorem forced_reload_in_place (env : Env K V) (g : LoadingCache K V) (key : K)
    (f : Option (V → Bool)) (el : Nat) (entry : CacheEntry K V)
    (loader : Nat → K → Except Error V) (w : V)
    (hs : g.lruContainer.Sound)
    (hget : g.lruContainer.Get key = some el)
    (hen : g.lruContainer.getEntry el = some entry)
    (hold : isExpired g entry (env.now g.clock) = true ∨ stale f entry.value = true)
    (hl : env.loader = some loader)
    (hfree : key ∉ g.singleFight.m)
    (hok : loader g.loads key = .ok w) :
    ∃ g1 ta tw, GetWithExpiredFunc env g key f = some (.ok w, g1) ∧
      g1.loads = g.loads + 1 ∧
      g1.lruContainer.data = g.lruContainer.data ∧
      g1.lruContainer.Get key = some el ∧
      g1.lruContainer.getEntry el = some ⟨key, w, ta, tw⟩ ∧
      g1.lruContainer.ls.length = g.lruContainer.ls.length ∧
      g1.lruContainer.keys.Perm g.lruContainer.keys ∧
      g1.removeEvent = g.removeEvent := by
  have hexp : (isExpired { g with clock := g.clock + 1 } entry (env.now g.clock)
      || stale f entry.value) = true := by
    rcases hold with h | h
    · have h2 : isExpired { g with clock := g.clock + 1 } entry (env.now g.clock) = true := h
      rw [h2]
      rfl
    · rw [h]
      exact Bool.or_true _
  have hcalc : GetWithExpiredFunc env g key f
      = loadInfo env { g with clock := g.clock + 1 } key := by
    simp only [GetWithExpiredFunc, hget, hen, now, hexp, if_true]
  obtain ⟨g1, hres, hloads, hlc, hrem, _, _⟩ :=
    loadInfo_ok env { g with clock := g.clock + 1 } key loader w hl hfree hok
  dsimp only at hloads hlc hrem
  obtain ⟨ta, hta⟩ : ∃ ta, ta = env.now (g.clock + 1 + 1) := ⟨_, rfl⟩
  obtain ⟨tw, htw⟩ : ∃ tw, tw = env.now (g.clock + 1 + 1 + 1) := ⟨_, rfl⟩
  rw [← hta, ← htw] at hlc hrem
  have hload : Load g.lruContainer.data (⟨key, w, ta, tw⟩ : CacheEntry K V).key = some el :=
    hget
  obtain ⟨h1, h2, h3, h4, _, h6, h7⟩ := LruCache.Add_present_effect _ _ _ hs hload
  refine ⟨g1, ta, tw, hcalc.trans hres, hloads, ?_, ?_, ?_, ?_, ?_, ?_⟩
  · rw [hlc, h2]
  · rw [hlc]
    exact h6
  · rw [hlc]
    exact h7
  · rw [hlc]
    exact h3
  · rw [hlc]
    exact h4
  · rw [hrem, h1]

/-- C10: a loader failure leaves the container alone.  When
`GetWithExpiredFunc` takes the load path (key absent, entry expired, or
custom predicate true), no call for the key is in flight and the next
invocation of the loader returns the error `e`, the call returns exactly
`e`, after exactly one invocation of the loader; the load-error counter is
incremented by one (as a `uint64`), the load-success counter is unchanged,
and the container is the same: same list, same index, same entries. -/
theorem loader_failure_atomic (env : Env K V) (g : LoadingCache K V) (key : K)
    (f : Option (V → Bool)) (loader : Nat → K → Except Error V) (e : Error)
    (hpath : takesLoadPath env g key f = true)
    (hl : env.loader = some loader)
    (hfree : key ∉ g.singleFight.m)
    (herr : loader g.loads key = .error e) :
    ∃ g1, GetWithExpiredFunc env g key f = some (.error e, g1) ∧
      g1.loads = g.loads + 1 ∧
      g1.stats.LoadErrorCount = u64 (g.stats.LoadErrorCount + 1) ∧
      (g.stats.LoadErrorCount + 1 < 2 ^ 64 →
        g1.stats.LoadErrorCount = g.stats.LoadErrorCount + 1) ∧
      g1.stats.LoadSuccessCount = g.stats.LoadSuccessCount ∧
      g1.lruContainer = g.lruContainer := by
  have hu : ∀ n : Nat, n < 2 ^ 64 → u64 n = n := fun n hn => Nat.mod_eq_of_lt hn
  unfold takesLoadPath at hpath
  cases hget : g.lruContainer.Get key with
  | none =>
    have hcalc : GetWithExpiredFunc env g key f
        = loadInfo env { g with stats := g.stats.RecordMisses 1 } key := by
      simp only [GetWithExpiredFunc, hget]
    obtain ⟨g1, hres, hloads, hlc, hst, _, _, _⟩ :=
      loadInfo_error env { g with stats := g.stats.RecordMisses 1 } key loader e hl hfree herr
    dsimp only at hloads hlc hst
    refine ⟨g1, hcalc.trans hres, hloads, ?_, ?_, ?_, hlc⟩
    · rw [hst]
      rfl
    · intro hlt
      rw [hst]
      exact hu _ hlt
    · rw [hst]
      rfl
  | some el =>
    rw [hget] at hpath
    dsimp only at hpath
    cases hen : g.lruContainer.getEntry el with
    | none =>
      rw [hen] at hpath
      cases hpath
    | some entry =>
      rw [hen] at hpath
      have hexp : (isExpired { g with clock := g.clock + 1 } entry (env.now g.clock)
          || stale f entry.value) = true := hpath
      have hcalc : GetWithExpiredFunc env g key f
          = loadInfo env { g with clock := g.clock + 1 } key := by
        simp only [GetWithExpiredFunc, hget, hen, now, hexp, if_true]
      obtain ⟨g1, hres, hloads, hlc, hst, _, _, _⟩ :=
        loadInfo_error env { g with clock := g.clock + 1 } key loader e hl hfree herr
      dsimp only at hloads hlc hst
      refine ⟨g1, hcalc.trans hres, hloads, ?_, ?_, ?_, hlc⟩
      · rw [hst]
        rfl
      · intro hlt
        rw [hst]
        exact hu _ hlt
      · rw [hst]
        rfl

end LoadingCache

/-! ## The claims at concrete inputs -/

namespace LruCache

theorem capacity_invariant_witness :
    (0 : Int) < 2 ∧
    run (Init 2) (demoOps.take 6) = some
      { cap := 2, ls := [⟨1, ⟨1, 12, 0, 0⟩⟩, ⟨2, ⟨1, 11, 0, 0⟩⟩], data := [(1, 1)],
        detached := [⟨0, ⟨1, 10, 0, 0⟩⟩], fresh := 3 } ∧
    ((([⟨1, ⟨1, 12, 0, 0⟩⟩, ⟨2, ⟨1, 11, 0, 0⟩⟩] : List (Element Nat Nat)).length : Int) ≤ 2 ∧
     ((([(1, 1)] : List (Nat × Nat)).length : Int) ≤ 2)) :=
  ⟨by decide, rfl, capacity_invariant 2 (by decide) demoOps 6 _ rfl⟩

theorem Add_evicts_back_witness :
    Coherent demoFull ∧ 0 < demoFull.cap ∧ (demoFull.ls.length : Int) = demoFull.cap ∧
    Load demoFull.data (⟨3, 30, 0, 0⟩ : CacheEntry Nat Nat).key = none ∧
    ∃ init b, demoFull.ls = init ++ [b] ∧
      (Add demoFull ⟨3, 30, 0, 0⟩).2 = some b.Value ∧
      Load (Add demoFull ⟨3, 30, 0, 0⟩).1.data b.Value.key = none ∧
      Load (Add demoFull ⟨3, 30, 0, 0⟩).1.data (⟨3, 30, 0, 0⟩ : CacheEntry Nat Nat).key
        = some b.addr ∧
      (∀ k, k ≠ b.Value.key → k ≠ (⟨3, 30, 0, 0⟩ : CacheEntry Nat Nat).key →
        Load (Add demoFull ⟨3, 30, 0, 0⟩).1.data k = Load demoFull.data k) ∧
      (Add demoFull ⟨3, 30, 0, 0⟩).1.ls = ⟨b.addr, ⟨3, 30, 0, 0⟩⟩ :: init ∧
      ((Add demoFull ⟨3, 30, 0, 0⟩).1.ls.length : Int) = demoFull.cap ∧
      ((Add demoFull ⟨3, 30, 0, 0⟩).1.data.length : Int) = demoFull.cap :=
  have hc : Coherent demoFull := Coherent_Add (Coherent_Add (Coherent_Init 2) _) _
  ⟨hc, by decide, rfl, rfl, Add_evicts_back demoFull ⟨3, 30, 0, 0⟩ hc (by decide) rfl rfl⟩

theorem promotion_respected_witness :
    (Add (Init 2) (⟨1, 10, 0, 0⟩ : CacheEntry Nat Nat)).2 = none ∧
    (Add (Add (Init 2) (⟨1, 10, 0, 0⟩ : CacheEntry Nat Nat)).1 ⟨2, 20, 0, 0⟩).2 = none ∧
    Add (Add (Add (Init 2) (⟨1, 10, 0, 0⟩ : CacheEntry Nat Nat)).1 ⟨2, 20, 0, 0⟩).1
        ⟨3, 30, 0, 0⟩ =
      ({ cap := 2, ls := [⟨0, ⟨3, 30, 0, 0⟩⟩, ⟨1, ⟨2, 20, 0, 0⟩⟩],
         data := [(3, 0), (2, 1)], detached := [], fresh := 2 }, some ⟨1, 10, 0, 0⟩) ∧
    Get (Add (Add (Add (Init 2) (⟨1, 10, 0, 0⟩ : CacheEntry Nat Nat)).1 ⟨2, 20, 0, 0⟩).1
        ⟨3, 30, 0, 0⟩).1 2 = some 1 ∧
    Add (Hit (Add (Add (Add (Init 2) (⟨1, 10, 0, 0⟩ : CacheEntry Nat Nat)).1
        ⟨2, 20, 0, 0⟩).1 ⟨3, 30, 0, 0⟩).1 1) ⟨4, 40, 0, 0⟩ =
      ({ cap := 2, ls := [⟨0, ⟨4, 40, 0, 0⟩⟩, ⟨1, ⟨2, 20, 0, 0⟩⟩],
         data := [(4, 0), (2, 1)], detached := [], fresh := 2 }, some ⟨3, 30, 0, 0⟩) :=
  promotion_respected (⟨1, 10, 0, 0⟩ : CacheEntry Nat Nat) ⟨2, 20, 0, 0⟩ ⟨3, 30, 0, 0⟩
    ⟨4, 40, 0, 0⟩ (by decide) (by decide) (by decide) (by decide) (by decide) (by decide)

theorem Add_present_key_witness :
    Sound demoFull ∧
    Load demoFull.data (⟨1, 11, 7, 7⟩ : CacheEntry Nat Nat).key = some 0 ∧
    ((Add demoFull ⟨1, 11, 7, 7⟩).2 = none ∧
     (Add demoFull ⟨1, 11, 7, 7⟩).1.data = demoFull.data ∧
     (Add demoFull ⟨1, 11, 7, 7⟩).1.ls.length = demoFull.ls.length ∧
     (Add demoFull ⟨1, 11, 7, 7⟩).1.keys.Perm demoFull.keys ∧
     (Add demoFull ⟨1, 11, 7, 7⟩).1.ls = ⟨0, ⟨1, 11, 7, 7⟩⟩ :: unlink demoFull.ls 0 ∧
     Get (Add demoFull ⟨1, 11, 7, 7⟩).1 (⟨1, 11, 7, 7⟩ : CacheEntry Nat Nat).key = some 0 ∧
     getEntry (Add demoFull ⟨1, 11, 7, 7⟩).1 0 = some ⟨1, 11, 7, 7⟩) :=
  have hs : Sound demoFull := Sound_Add (Sound_Add (Sound_Init 2) _) _
  ⟨hs, rfl, Add_present_key demoFull ⟨1, 11, 7, 7⟩ 0 hs rfl⟩

theorem index_list_consistency_witness :
    liveRun (Init 2) demoLiveOps = true ∧
    ∃ l, run (Init 2) (demoLiveOps.take 6) = some l ∧ Consistent l :=
  ⟨by decide, index_list_consistency 2 demoLiveOps (by decide) 6⟩

end LruCache

namespace LoadingCache

/-- C6: the round trip `Put(k, v); Get(k)` on a key that is present with an
expired entry.  In `staleCache` the key 1 holds the value 10 written at time
0 and `expireAfterWrite` is 2.  At time 10, `Put(1, 20)` stores 20 and
leaves the write time at 0; the `Get(1)` that follows at the same time 10
finds the entry expired, invokes the loader once and returns the loaded 99
instead of 20. -/
theorem Put_Get_on_expired_entry :
    staleCache.lruContainer.getEntry 0 = some ⟨1, 10, 0, 0⟩ ∧
    staleEnv.now staleCache.clock = 10 ∧
    ∃ g1 g2, Put staleEnv staleCache 1 20 = some g1 ∧
      g1.clock = staleCache.clock ∧
      g1.lruContainer.getEntry 0 = some ⟨1, 20, 0, 0⟩ ∧
      Get staleEnv g1 1 = some (.ok 99, g2) ∧
      g2.loads = g1.loads + 1 :=
  ⟨rfl, rfl, _, _, rfl, rfl, rfl, rfl, rfl⟩

theorem forced_reload_in_place_witness :
    demoLoaded.lruContainer.Sound ∧
    demoLoaded.lruContainer.Get 1 = some 0 ∧
    demoLoaded.lruContainer.getEntry 0 = some ⟨1, 100, 1, 2⟩ ∧
    stale (some (fun _ : Nat => true)) 100 = true ∧
    demoLoaded.loads = 1 ∧
    ∃ g1 ta tw,
      GetWithExpiredFunc demoEnv demoLoaded 1 (some (fun _ => true)) = some (.ok 101, g1) ∧
      g1.loads = demoLoaded.loads + 1 ∧
      g1.lruContainer.data = demoLoaded.lruContainer.data ∧
      g1.lruContainer.Get 1 = some 0 ∧
      g1.lruContainer.getEntry 0 = some ⟨1, 101, ta, tw⟩ ∧
      g1.lruContainer.ls.length = demoLoaded.lruContainer.ls.length ∧
      g1.lruContainer.keys.Perm demoLoaded.lruContainer.keys ∧
      g1.removeEvent = demoLoaded.removeEvent :=
  have hs : demoLoaded.lruContainer.Sound :=
    LruCache.Sound_Add (LruCache.Sound_Init 2) ⟨1, 100, 1, 2⟩
  ⟨hs, rfl, rfl, rfl, rfl,
    forced_reload_in_place demoEnv demoLoaded 1 (some (fun _ => true)) 0 ⟨1, 100, 1, 2⟩
      (fun n _ => .ok (100 + n)) 101 hs rfl rfl (Or.inr rfl) rfl (by decide) rfl⟩

theorem loader_failure_atomic_witness :
    takesLoadPath demoFailEnv demoLoaded 1 (some (fun _ => true)) = true ∧
    takesLoadPath demoFailEnv demoLoaded 2 none = true ∧
    (∃ g1, GetWithExpiredFunc demoFailEnv demoLoaded 1 (some (fun _ => true))
        = some (.error "boom", g1) ∧
      g1.loads = demoLoaded.loads + 1 ∧
      g1.stats.LoadErrorCount = u64 (demoLoaded.stats.LoadErrorCount + 1) ∧
      (demoLoaded.stats.LoadErrorCount + 1 < 2 ^ 64 →
        g1.stats.LoadErrorCount = demoLoaded.stats.LoadErrorCount + 1) ∧
      g1.stats.LoadSuccessCount = demoLoaded.stats.LoadSuccessCount ∧
      g1.lruContainer = demoLoaded.lruContainer) ∧
    (∃ g1, GetWithExpiredFunc demoFailEnv demoLoaded 2 none = some (.error "boom", g1) ∧
      g1.loads = demoLoaded.loads + 1 ∧
      g1.stats.LoadErrorCount = u64 (demoLoaded.stats.LoadErrorCount + 1) ∧
      (demoLoaded.stats.LoadErrorCount + 1 < 2 ^ 64 →
        g1.stats.LoadErrorCount = demoLoaded.stats.LoadErrorCount + 1) ∧
      g1.stats.LoadSuccessCount = demoLoaded.stats.LoadSuccessCount ∧
      g1.lruContainer = demoLoaded.lruContainer) :=
  ⟨rfl, rfl,
    loader_failure_atomic demoFailEnv demoLoaded 1 (some (fun _ => true))
      (fun _ _ => .error "boom") "boom" rfl rfl (by decide) rfl,
    loader_failure_atomic demoFailEnv demoLoaded 2 none
      (fun _ _ => .error "boom") "boom" rfl rfl (by decide) rfl⟩

/-- The first loop of `TestLoadingCache_GetWithExpiredFunc`: ten `Get` calls
without a custom predicate return one and the same value, from one
invocation of the loader. -/
theorem ten_gets_one_value :
    (GetTimes demoEnv 1 none 10 demoCache).map (fun r => (r.1, r.2.loads))
      = some (List.replicate 10 (.ok 100), 1) := by
  rfl

/-- The second loop of `TestLoadingCache_GetWithExpiredFunc`, on the cache
the first loop leaves: ten calls with a custom predicate that is always true
return ten distinct values, from ten more invocations of the loader. -/
theorem ten_stale_gets_ten_loads :
    ((GetTimes demoEnv 1 none 10 demoCache).bind
        (fun r => GetTimes demoEnv 1 (some (fun _ => true)) 10 r.2)).map
        (fun r => (r.1, r.2.loads))
      = some ([.ok 101, .ok 102, .ok 103, .ok 104, .ok 105, .ok 106, .ok 107, .ok 108,
               .ok 109, .ok 110], 11) := by
  rfl

end LoadingCache

/-! ## The sweep interval, the unbounded container and `Put` on a present key -/

/-- C19: the sweep interval.  For non-negative durations
`getMinTimeDurationExcludeZero` returns 0 when both are zero, the non-zero
one when exactly one is zero and the minimum when both are positive; the
result does not depend on the order of the arguments and is 0 only when both
are 0, which is the only case in which the sweep task does not run. -/
theorem getMinTimeDurationExcludeZero_spec (t1 t2 : Int)
    (h1 : 0 ≤ t1) (h2 : 0 ≤ t2) :
    (t1 = 0 → t2 = 0 → getMinTimeDurationExcludeZero t1 t2 = 0) ∧
    (t1 = 0 → 0 < t2 → getMinTimeDurationExcludeZero t1 t2 = t2) ∧
    (0 < t1 → t2 = 0 → getMinTimeDurationExcludeZero t1 t2 = t1) ∧
    (0 < t1 → 0 < t2 → getMinTimeDurationExcludeZero t1 t2 = min t1 t2) ∧
    getMinTimeDurationExcludeZero t1 t2 = getMinTimeDurationExcludeZero t2 t1 ∧
    (getMinTimeDurationExcludeZero t1 t2 = 0 ↔ t1 = 0 ∧ t2 = 0) ∧
    (LoadingCache.sweepTaskRuns (getMinTimeDurationExcludeZero t1 t2) = false ↔
      t1 = 0 ∧ t2 = 0) := by
  have hsym : getMinTimeDurationExcludeZero t1 t2 = getMinTimeDurationExcludeZero t2 t1 := by
    unfold getMinTimeDurationExcludeZero Duration
    split_ifs <;> omega
  have hzero : getMinTimeDurationExcludeZero t1 t2 = 0 ↔ t1 = 0 ∧ t2 = 0 := by
    unfold getMinTimeDurationExcludeZero Duration
    split_ifs <;> omega
  refine ⟨?_, ?_, ?_, ?_, hsym, hzero, ?_⟩
  · intro h5 h6
    exact hzero.2 ⟨h5, h6⟩
  · intro h5 h6
    unfold getMinTimeDurationExcludeZero Duration
    split_ifs <;> omega
  · intro h5 h6
    unfold getMinTimeDurationExcludeZero Duration
    split_ifs <;> omega
  · intro h5 h6
    unfold getMinTimeDurationExcludeZero Duration
    rw [min_def]
    split_ifs <;> omega
  · rw [← hzero]
    simp [LoadingCache.sweepTaskRuns]

namespace LruCache

variable {K V : Type} [DecidableEq K]

/-- Whatever the capacity and the state, an entry `Add` returns is the entry
of a node of the list: the branch `el == nil` that would return the argument
is never taken. -/
theorem Add_returns_list_entry (l : LruCache K V) (en r : CacheEntry K V)
    (h : (Add l en).2 = some r) : ∃ b ∈ l.ls, b.Value = r := by
  unfold Add at h
  split at h
  · cases h
  · split at h
    · cases h
    · rename_i hc
      cases hb : Back l.ls with
      | none =>
        exfalso
        have hnil : l.ls = [] := List.getLast?_eq_none_iff.1 hb
        apply hc
        rw [hnil]
        simp only [List.length_nil, Nat.cast_zero]
        exact le_or_lt _ _
      | some b =>
        rw [hb] at h
        simp only [Option.some.injEq] at h
        refine ⟨b, ?_, h⟩
        obtain ⟨init, hsplit⟩ := List.getLast?_eq_some_iff.1 hb
        rw [hsplit]
        simp

/-- C17: zero capacity means unbounded.  In every state a container
initialised with a capacity `C ≤ 0` reaches, `Add` returns `nil`, so never
the entry it was given; when the key is absent the entry is put in a new
node at the front, the length of the list grows by exactly one, the key is
bound to the new node and the other bindings are kept. -/
theorem zero_capacity_unbounded (C : Int) (hC : C ≤ 0) (ops : List (Op K V))
    (l : LruCache K V) (h : run (Init C) ops = some l) (en : CacheEntry K V) :
    (Add l en).2 = none ∧
    (Load l.data en.key = none →
      (Add l en).1.ls = ⟨l.fresh, en⟩ :: l.ls ∧
      (Add l en).1.ls.length = l.ls.length + 1 ∧
      Load (Add l en).1.data en.key = some l.fresh ∧
      (∀ k, k ≠ en.key → Load (Add l en).1.data k = Load l.data k) ∧
      (Add l en).1.cap = l.cap) := by
  have hcap : l.cap ≤ 0 := by
    rw [cap_run h]
    exact hC
  constructor
  · cases hl : Load l.data en.key with
    | some el => simp only [Add, hl]
    | none => rw [Add_room hl (Or.inl hcap)]
  · intro hl
    rw [Add_room hl (Or.inl hcap)]
    refine ⟨rfl, rfl, Load_Store_self _ _ _, ?_, rfl⟩
    intro k hk
    exact Load_Store_ne _ _ hk

theorem findNode_setValue_ne (ls : List (Element K V)) (el x : Nat)
    (en : CacheEntry K V) (hx : x ≠ el) :
    findNode (setValue ls el en) x = findNode ls x := by
  induction ls with
  | nil => rfl
  | cons e ls ih =>
    simp only [setValue, findNode, List.map_cons, List.find?] at ih ⊢
    by_cases he : e.addr = el
    · have hne : ¬ el = x := fun h => hx h.symm
      simp only [he, if_true, hne, decide_False]
      exact ih
    · simp only [he, if_false]
      by_cases hex : e.addr = x
      · simp only [hex, decide_True]
      · simp only [hex, decide_False]
        exact ih

end LruCache

namespace LoadingCache

variable {K V : Type} [DecidableEq K]

/-- C20: `Put` on a present key changes only the value.  In a cache whose
container is sound, when the index gives the node `el` for the key and the
node holds the entry `en`, `Put(k, v)` returns the cache in which the node
`el` holds `en` with the value `v` and everything else is as before: the
nodes, their order, keys and time stamps, the entries of the other nodes, the
index, the length, the statistics, the queues and the clock. -/
theorem Put_present_changes_only_value (env : Env K V) (g : LoadingCache K V)
    (key : K) (v : V) (el : Nat) (en : CacheEntry K V)
    (hs : g.lruContainer.Sound)
    (hget : g.lruContainer.Get key = some el)
    (hen : g.lruContainer.getEntry el = some en) :
    ∃ g1, Put env g key v = some g1 ∧
      g1 = { g with lruContainer := { g.lruContainer with
              ls := setValue g.lruContainer.ls el { en with value := v } } } ∧
      g1.lruContainer.getEntry el = some { en with value := v } ∧
      (∀ x, x ≠ el → g1.lruContainer.getEntry x = g.lruContainer.getEntry x) ∧
      g1.lruContainer.ls.map (fun e => (e.addr, e.Value.key, e.Value.access, e.Value.write))
        = g.lruContainer.ls.map
            (fun e => (e.addr, e.Value.key, e.Value.access, e.Value.write)) ∧
      g1.lruContainer.data = g.lruContainer.data ∧
      g1.lruContainer.ls.length = g.lruContainer.ls.length ∧
      g1.stats = g.stats := by
  obtain ⟨e, as, bs, hsplit, ha, hk, hen2⟩ := entry_of_Get hs hget
  rw [hen, Option.some.injEq] at hen2
  have hn := hs.addrs
  rw [hsplit] at hn
  have hd : setValue g.lruContainer.detached el { en with value := v }
      = g.lruContainer.detached :=
    setValue_absent _ (fun d hd heq =>
      (hs.apart d hd).2 e (by rw [hsplit]; simp) (ha.trans heq.symm))
  have hls : setValue g.lruContainer.ls el { en with value := v }
      = as ++ ⟨e.addr, { en with value := v }⟩ :: bs := by
    rw [hsplit, ← ha]
    exact setValue_mid _ hn
  have hn2 : ((as ++ (⟨e.addr, { en with value := v }⟩ : Element K V) :: bs).map
      (fun x => x.addr)).Nodup := by
    simpa using hn
  have hput : Put env g key v = some
      { g with lruContainer := { g.lruContainer with
          ls := setValue g.lruContainer.ls el { en with value := v } } } := by
    simp only [Put, hget, hen, LruCache.setEntry, hd]
  refine ⟨_, hput, rfl, ?_, ?_, ?_, rfl, ?_, rfl⟩
  · simp only [LruCache.getEntry, hls]
    rw [← ha, findNode_mid hn2]
  · intro x hx
    simp only [LruCache.getEntry, LruCache.findNode_setValue_ne _ _ _ _ hx]
  · simp only [hls]
    rw [hsplit, hen2]
    simp
  · simp only [hls]
    rw [hsplit]
    simp

theorem Get_fresh_eq (env : Env K V) (g : LoadingCache K V) (key : K)
    (f : Option (V → Bool)) (el : Nat) (entry : CacheEntry K V)
    (hget : g.lruContainer.Get key = some el)
    (hen : g.lruContainer.getEntry el = some entry)
    (hfresh : isExpired g entry (env.now g.clock) = false)
    (hf : stale f entry.value = false) :
    GetWithExpiredFunc env g key f = some (.ok entry.value,
      { checkRefreshAfterWrite env { g with clock := g.clock + 1 } entry with
        clock := (checkRefreshAfterWrite env { g with clock := g.clock + 1 } entry).clock + 1,
        lruContainer :=
          (checkRefreshAfterWrite env { g with clock := g.clock + 1 } entry).lruContainer.setEntry
            el
            { entry with
              access :=
                env.now (checkRefreshAfterWrite env { g with clock := g.clock + 1 } entry).clock },
        hitEvent :=
          (checkRefreshAfterWrite env { g with clock := g.clock + 1 } entry).hitEvent
            ++ [el] }) := by
  have hexp : isExpired { g with clock := g.clock + 1 } entry (env.now g.clock) = false :=
    hfresh
  simp only [GetWithExpiredFunc, hget, hen, now, hexp, hf, Bool.or_self,
    Bool.false_eq_true, if_false]

/-- C15: refresh after write.  In a cache with `refreshAfterWrite > 0` whose
container is sound, when the key is present, its entry is not expired, the
custom predicate is absent or false, and the write time is before the
reading of the clock `checkRefreshAfterWrite` makes minus `refreshAfterWrite`,
`GetWithExpiredFunc` returns the value the entry holds, with no error and no
invocation of the loader.  If the key is not in the refresh map the call
adds it and starts exactly one `refresh` goroutine, on that entry; if the
key is in the map the call starts none and leaves the map as it is. -/
theorem refresh_after_write (env : Env K V) (g : LoadingCache K V) (key : K)
    (f : Option (V → Bool)) (el : Nat) (entry : CacheEntry K V)
    (hs : g.lruContainer.Sound)
    (hget : g.lruContainer.Get key = some el)
    (hen : g.lruContainer.getEntry el = some entry)
    (hfresh : isExpired g entry (env.now g.clock) = false)
    (hf : stale f entry.value = false)
    (hr : 0 < g.refreshAfterWrite)
    (hw : entry.write < env.now (g.clock + 1) - g.refreshAfterWrite) :
    ∃ g1, GetWithExpiredFunc env g key f = some (.ok entry.value, g1) ∧
      g1.loads = g.loads ∧
      (key ∉ g.refreshMap →
        g1.refreshMap = key :: g.refreshMap ∧
        g1.refreshing = g.refreshing ++ [entry]) ∧
      (key ∈ g.refreshMap →
        g1.refreshMap = g.refreshMap ∧ g1.refreshing = g.refreshing) := by
  obtain ⟨e, as, bs, hsplit, ha, hk, hen2⟩ := entry_of_Get hs hget
  rw [hen, Option.some.injEq] at hen2
  have hkey : entry.key = key := by rw [hen2, hk]
  have hres := Get_fresh_eq env g key f el entry hget hen hfresh hf
  have hgr : checkRefreshAfterWrite env { g with clock := g.clock + 1 } entry
      = if key ∈ g.refreshMap then { g with clock := g.clock + 1 + 1 }
        else { g with clock := g.clock + 1 + 1,
                      refreshMap := key :: g.refreshMap,
                      refreshing := g.refreshing ++ [entry] } := by
    simp only [checkRefreshAfterWrite, now, gt_iff_lt, hr, if_true, ← sub_eq_add_neg, hw,
      hkey]
  refine ⟨_, hres, ?_, ?_, ?_⟩
  · exact (checkRefreshAfterWrite_frame env { g with clock := g.clock + 1 } entry).2.1
  · intro hm
    simp only [hgr, if_neg hm, and_self]
  · intro hm
    simp only [hgr, if_pos hm, and_self]

end LoadingCache

/-! ## Removal of an unlinked node, the derived statistics -/

namespace LruCache

variable {K V : Type} [DecidableEq K]

/-- `Remove` of a node that is not linked any more: when the key of its entry
is not in the index the call returns `nil` and changes nothing; when the key
is in the index again the call deletes that binding and returns the entry of
the unlinked node. -/
theorem Remove_unlinked (l : LruCache K V) (el : Nat) (d : Element K V)
    (hf : findNode l.ls el = none) (hd : findNode l.detached el = some d) :
    (Load l.data d.Value.key = none → Remove l el = some (l, none)) ∧
    (∀ a, Load l.data d.Value.key = some a →
      Remove l el = some ({ l with data := Delete l.data d.Value.key }, some d.Value)) := by
  constructor
  · intro hk
    simp only [Remove, getEntry, hf, hd, Option.map_some', hk]
  · intro a hk
    simp only [Remove, getEntry, hf, hd, Option.map_some', hk, listRemove]

/-- C16: defensive removal.  In `demoReinserted` the node 0 is not linked, its
entry carries the key 1, and the key 1 is bound to the linked node 2.
`Remove` of the node 0 does not return `nil`: it returns the entry of the
node 0 and deletes the binding of the key 1, while the node 2 stays in the
list. -/
theorem Remove_unlinked_node_of_reinserted_key :
    linked demoReinserted 0 = false ∧
    getEntry demoReinserted 0 = some ⟨1, 10, 0, 0⟩ ∧
    Get demoReinserted 1 = some 2 ∧
    linked demoReinserted 2 = true ∧
    ∃ l, Remove demoReinserted 0 = some (l, some ⟨1, 10, 0, 0⟩) ∧
      l.ls = demoReinserted.ls ∧
      Get l 1 = none ∧
      getEntry l 2 = some ⟨1, 11, 0, 0⟩ :=
  ⟨rfl, rfl, rfl, rfl, _, rfl, rfl, rfl, rfl⟩

end LruCache

namespace Stats

theorem i64_of_range (x : Int) (h1 : -(2 ^ 63) ≤ x) (h2 : x < 2 ^ 63) : i64 x = x := by
  unfold i64
  omega

theorem tdiv_range (t n : Int) (hn : 0 ≤ n) (h1 : -(2 ^ 63) ≤ t) (h2 : t < 2 ^ 63) :
    -(2 ^ 63) ≤ Int.tdiv t n ∧ Int.tdiv t n < 2 ^ 63 := by
  by_cases ht : 0 ≤ t
  · rw [Int.tdiv_eq_ediv ht hn]
    have h3 := Int.ediv_le_self n ht
    have h4 := Int.ediv_nonneg ht hn
    omega
  · have hneg : 0 ≤ -t := by omega
    have h5 : Int.tdiv t n = -(Int.tdiv (-t) n) := by
      rw [Int.neg_tdiv, neg_neg]
    rw [h5, Int.tdiv_eq_ediv hneg hn]
    have h3 := Int.ediv_le_self n hneg
    have h4 := Int.ediv_nonneg hneg hn
    omega

/-- C18, as stated, fails: with `2 ^ 64 - 1` loads and a total load time of 5
the divisor `time.Duration(total)` is `-1` and `AverageLoadPenalty` returns
`-5`, which is not the quotient of 5 by `2 ^ 64 - 1`. -/
theorem AverageLoadPenalty_of_huge_total :
    0 < hugeStats.LoadSuccessCount + hugeStats.LoadErrorCount ∧
    AverageLoadPenalty hugeStats = -5 ∧
    AverageLoadPenalty hugeStats ≠
      Int.tdiv hugeStats.TotalLoadTime
        ((hugeStats.LoadSuccessCount + hugeStats.LoadErrorCount : Nat) : Int) := by
  decide

/-- C18, amended: derived statistics.  With `HitCount + MissCount = 0`,
`HitRate` is `1.0` and `MissRate` is `0.0`; with
`LoadSuccessCount + LoadErrorCount = 0`, `LoadErrorRate` is `0.0` and
`AverageLoadPenalty` is 0; and when `LoadSuccessCount + LoadErrorCount = n`
with `0 < n < 2 ^ 63` and `TotalLoadTime` an `int64`, `AverageLoadPenalty` is
the quotient of `TotalLoadTime` by `n`, truncated toward zero. -/
theorem derived_statistics (s : Stats) :
    (s.HitCount + s.MissCount = 0 → HitRate s = 1.0 ∧ MissRate s = 0.0) ∧
    (s.LoadSuccessCount + s.LoadErrorCount = 0 →
      LoadErrorRate s = 0.0 ∧ AverageLoadPenalty s = 0) ∧
    (0 < s.LoadSuccessCount + s.LoadErrorCount →
      s.LoadSuccessCount + s.LoadErrorCount < 2 ^ 63 →
      -(2 ^ 63) ≤ s.TotalLoadTime → s.TotalLoadTime < 2 ^ 63 →
      AverageLoadPenalty s =
        Int.tdiv s.TotalLoadTime ((s.LoadSuccessCount + s.LoadErrorCount : Nat) : Int)) := by
  refine ⟨?_, ?_, ?_⟩
  · intro h
    have h0 : RequestCount s = 0 := by
      simp only [RequestCount, h, u64, Nat.zero_mod]
    exact ⟨by simp only [HitRate, h0, if_true], by simp only [MissRate, h0, if_true]⟩
  · intro h
    have h0 : u64 (s.LoadSuccessCount + s.LoadErrorCount) = 0 := by
      simp only [h, u64, Nat.zero_mod]
    exact ⟨by simp only [LoadErrorRate, h0, if_true],
      by simp only [AverageLoadPenalty, h0, if_true]⟩
  · intro hpos hlt h1 h2
    have hu : u64 (s.LoadSuccessCount + s.LoadErrorCount)
        = s.LoadSuccessCount + s.LoadErrorCount := by
      unfold u64
      omega
    have hne : ¬ s.LoadSuccessCount + s.LoadErrorCount = 0 := by omega
    have hi : i64 ((s.LoadSuccessCount + s.LoadErrorCount : Nat) : Int)
        = ((s.LoadSuccessCount + s.LoadErrorCount : Nat) : Int) := by
      apply i64_of_range <;> omega
    have hr := tdiv_range s.TotalLoadTime ((s.LoadSuccessCount + s.LoadErrorCount : Nat) : Int)
      (by omega) h1 h2
    simp only [AverageLoadPenalty, hu, hne, if_false, hi]
    exact i64_of_range _ hr.1 hr.2

end Stats

/-! ## What the sweep, `Put` and a reload do in general -/

section WalkLemmas

variable {K V : Type}

theorem Next_absent {ls : List (Element K V)} {el : Nat}
    (h : ∀ e ∈ ls, e.addr ≠ el) : Next ls el = none := by
  induction ls with
  | nil => rfl
  | cons e ls ih =>
    have he : ¬ e.addr = el := h e (List.mem_cons_self _ _)
    simp only [Next, if_neg he]
    exact ih (fun x hx => h x (List.mem_cons_of_mem _ hx))

theorem Next_unlink (ls : List (Element K V)) (el : Nat) :
    Next (unlink ls el) el = none := by
  apply Next_absent
  intro e he
  simpa [unlink] using (List.mem_filter.1 he).2

end WalkLemmas

namespace LoadingCache

variable {K V : Type} [DecidableEq K]

/-- What `removeEl` does to the cache: the list is kept, or the node is
unlinked and nothing follows it; the statistics and the queues are kept. -/
theorem removeEl_effect {g : LoadingCache K V} {el : Nat}
    {r : Option V × LoadingCache K V} (h : removeEl g el = some r) :
    (r.2.lruContainer.ls = g.lruContainer.ls ∨
      (r.2.lruContainer.ls = unlink g.lruContainer.ls el ∧
        Next r.2.lruContainer.ls el = none)) ∧
    r.2.stats = g.stats ∧ r.2.removeEvent = g.removeEvent ∧
    r.2.addEvent = g.addEvent ∧ r.2.hitEvent = g.hitEvent ∧
    r.2.expireAfterAccess = g.expireAfterAccess ∧
    r.2.expireAfterWrite = g.expireAfterWrite := by
  unfold removeEl at h
  cases hr : g.lruContainer.Remove el with
  | none => simp [hr] at h
  | some q =>
    have hls : q.1.ls = g.lruContainer.ls ∨
        (q.1.ls = unlink g.lruContainer.ls el ∧ Next q.1.ls el = none) := by
      unfold LruCache.Remove at hr
      split at hr
      · cases hr
      · split at hr
        · cases hr
          exact Or.inl rfl
        · cases hr
          simp only [LruCache.listRemove]
          split
          · exact Or.inl rfl
          · exact Or.inr ⟨rfl, Next_unlink _ _⟩
    rw [hr] at h
    dsimp only at h
    split at h
    · cases h
      exact ⟨hls, rfl, rfl, rfl, rfl, rfl, rfl⟩
    · cases h
      exact ⟨hls, rfl, rfl, rfl, rfl, rfl, rfl⟩

/-- Whatever the cache, the walk of `clearExpiredKey` unlinks the nodes of at
most one address, and it changes neither the statistics nor the queues. -/
theorem sweep_effect (env : Env K V) (fuel : Nat) (g g1 : LoadingCache K V)
    (el : Option Nat) (h : sweep env fuel g el = some g1) :
    (g1.lruContainer.ls = g.lruContainer.ls ∨
      ∃ a, g1.lruContainer.ls = unlink g.lruContainer.ls a) ∧
    g1.stats = g.stats ∧ g1.removeEvent = g.removeEvent ∧
    g1.addEvent = g.addEvent ∧ g1.hitEvent = g.hitEvent := by
  induction fuel generalizing g el with
  | zero =>
    cases el with
    | none =>
      simp only [sweep, Option.some.injEq] at h
      rw [← h]
      exact ⟨Or.inl rfl, rfl, rfl, rfl, rfl⟩
    | some a => simp [sweep] at h
  | succ fuel ih =>
    cases el with
    | none =>
      simp only [sweep, Option.some.injEq] at h
      rw [← h]
      exact ⟨Or.inl rfl, rfl, rfl, rfl, rfl⟩
    | some a =>
      simp only [sweep, now] at h
      cases hen : g.lruContainer.getEntry a with
      | none => simp [hen] at h
      | some en =>
        simp only [hen] at h
        split at h
        · cases hrem : removeEl { g with clock := g.clock + 1 } a with
          | none => simp [hrem] at h
          | some r =>
            simp only [hrem] at h
            obtain ⟨hls, hst, hre, hae, hhe, _, _⟩ := removeEl_effect hrem
            dsimp only at hls hst hre hae hhe
            rcases hls with hls | ⟨hls, hnext⟩
            · obtain ⟨h1, h2, h3, h4, h5⟩ := ih r.2 _ h
              rw [hls] at h1
              exact ⟨h1, h2.trans hst, h3.trans hre, h4.trans hae, h5.trans hhe⟩
            · rw [hnext] at h
              cases fuel with
              | zero =>
                simp only [sweep, Option.some.injEq] at h
                rw [← h]
                exact ⟨Or.inr ⟨a, hls⟩, hst, hre, hae, hhe⟩
              | succ n =>
                simp only [sweep, Option.some.injEq] at h
                rw [← h]
                exact ⟨Or.inr ⟨a, hls⟩, hst, hre, hae, hhe⟩
        · exact ih { g with clock := g.clock + 1 } _ h

/-- Whatever the cache, `Put` changes neither the statistics nor the queues:
an entry its `Add` evicts is sent nowhere. -/
theorem Put_frame (env : Env K V) (g g1 : LoadingCache K V) (key : K) (v : V)
    (h : Put env g key v = some g1) :
    g1.stats = g.stats ∧ g1.removeEvent = g.removeEvent ∧
    g1.addEvent = g.addEvent ∧ g1.hitEvent = g.hitEvent := by
  unfold Put at h
  split at h
  · split at h
    · cases h
    · cases h
      exact ⟨rfl, rfl, rfl, rfl⟩
  · simp only [now, Option.some.injEq] at h
    rw [← h]
    exact ⟨rfl, rfl, rfl, rfl⟩

/-- Whatever the cache, a call of `GetWithExpiredFunc` that finds the key and
reloads its entry (expired, or custom predicate true) changes neither
`HitCount` nor `MissCount` and sends nothing on the hit channel. -/
theorem reload_records_no_hit_no_miss (env : Env K V) (g : LoadingCache K V) (key : K)
    (f : Option (V → Bool)) (el : Nat) (entry : CacheEntry K V)
    (loader : Nat → K → Except Error V)
    (hget : g.lruContainer.Get key = some el)
    (hen : g.lruContainer.getEntry el = some entry)
    (hold : isExpired g entry (env.now g.clock) = true ∨ stale f entry.value = true)
    (hl : env.loader = some loader)
    (hfree : key ∉ g.singleFight.m) :
    ∃ r g1, GetWithExpiredFunc env g key f = some (r, g1) ∧
      g1.stats.HitCount = g.stats.HitCount ∧
      g1.stats.MissCount = g.stats.MissCount ∧
      g1.hitEvent = g.hitEvent := by
  have hexp : (isExpired { g with clock := g.clock + 1 } entry (env.now g.clock)
      || stale f entry.value) = true := by
    rcases hold with h | h
    · have h2 : isExpired { g with clock := g.clock + 1 } entry (env.now g.clock) = true := h
      rw [h2]
      rfl
    · rw [h]
      exact Bool.or_true _
  have hcalc : GetWithExpiredFunc env g key f
      = loadInfo env { g with clock := g.clock + 1 } key := by
    simp only [GetWithExpiredFunc, hget, hen, now, hexp, if_true]
  cases hres : loader g.loads key with
  | ok w =>
    obtain ⟨g1, h1, _, _, _, hst, hhit⟩ :=
      loadInfo_ok env { g with clock := g.clock + 1 } key loader w hl hfree hres
    refine ⟨_, g1, hcalc.trans h1, ?_, ?_, hhit⟩
    · rw [hst]
      rfl
    · rw [hst]
      rfl
  | error e =>
    obtain ⟨g1, h1, _, _, hst, hhit, _, _⟩ :=
      loadInfo_error env { g with clock := g.clock + 1 } key loader e hl hfree hres
    refine ⟨_, g1, hcalc.trans h1, ?_, ?_, hhit⟩
    · rw [hst]
      rfl
    · rw [hst]
      rfl

end LoadingCache

/-! ## The sweep and the accounting at concrete inputs -/

namespace LoadingCache

/-- C11: the sweep on a cache with three expired entries.  In `sweepCache`
the keys 3, 2, 1 are all expired at time 10, the time every reading of the
clock gives during the sweep.  One run of `clearExpiredKey` removes the
front node (key 3); `Next` of the unlinked node is nil, the walk ends, and
the keys 2 and 1, both expired at time 10, are still in the container. -/
theorem clearExpiredKey_stops_after_first_removal :
    sweepCache.lruContainer.keys = [3, 2, 1] ∧
    (∀ e ∈ sweepCache.lruContainer.ls, isExpired sweepCache e.Value 10 = true) ∧
    sweepEnv.now sweepCache.clock = 10 ∧
    ∃ g1, clearExpiredKey sweepEnv sweepCache = some g1 ∧
      sweepEnv.now g1.clock = 10 ∧
      g1.lruContainer.keys = [2, 1] ∧
      g1.lruContainer.Get 2 = some 1 ∧
      g1.lruContainer.Get 1 = some 0 ∧
      (∀ e ∈ g1.lruContainer.ls, isExpired g1 e.Value 10 = true) :=
  ⟨rfl, by decide, rfl, _, rfl, rfl, rfl, rfl, rfl, by decide⟩

/-- C12: two `Get` calls that are counted once.  On the new cache
`demoCache`, `Get(1)` is a miss and loads; the call that follows, with a
custom predicate that is always true, finds the entry, reloads it and
records neither a hit nor a miss.  Likewise the `Get(1)` on `staleCache`,
whose entry is expired, records nothing.  Once the queued events are
processed, `HitCount + MissCount` is 1 after the two calls and 0 after the
one call. -/
theorem reload_of_present_entry_is_not_counted :
    (∃ r1 g1 r2 g2 g3, Get demoEnv demoCache 1 = some (r1, g1) ∧
      GetWithExpiredFunc demoEnv g1 1 (some (fun _ => true)) = some (r2, g2) ∧
      processEvents g2 [.add, .add] = some g3 ∧
      idle g3 = true ∧
      g3.stats.HitCount + g3.stats.MissCount = 1) ∧
    (staleCache.stats.HitCount + staleCache.stats.MissCount = 0 ∧
     isExpired staleCache ⟨1, 10, 0, 0⟩ (staleEnv.now staleCache.clock) = true ∧
     ∃ r1 g1 g2, Get staleEnv staleCache 1 = some (r1, g1) ∧
      processEvents g1 [.add] = some g2 ∧
      idle g2 = true ∧
      g2.stats.HitCount + g2.stats.MissCount = 0) :=
  ⟨⟨_, _, _, _, _, rfl, rfl, rfl, rfl, rfl⟩, rfl, rfl, _, _, _, rfl, rfl, rfl, rfl⟩

/-- C13: evictions that are not counted.  In `oneSlotCache` (capacity 1, key
1) `Put(2, 20)` evicts the key 1, sends nothing on the remove channel and
leaves `EvictionCount` at 0; the sweep of `sweepCache` removes the expired
key 3, sends nothing and leaves `EvictionCount` at 0.  For comparison, the
`Get(2)` that loads into `oneSlotCache` evicts the key 1 and, once its events
are processed, `EvictionCount` is 1. -/
theorem evictions_by_Put_and_sweep_are_not_counted :
    oneSlotCache.lruContainer.keys = [1] ∧
    oneSlotCache.stats.EvictionCount = 0 ∧
    (∃ g1, Put demoEnv oneSlotCache 2 20 = some g1 ∧
      g1.lruContainer.keys = [2] ∧
      idle g1 = true ∧
      g1.stats.EvictionCount = 0) ∧
    sweepCache.lruContainer.keys = [3, 2, 1] ∧
    sweepCache.stats.EvictionCount = 0 ∧
    (∃ g1, clearExpiredKey sweepEnv sweepCache = some g1 ∧
      g1.lruContainer.keys = [2, 1] ∧
      idle g1 = true ∧
      g1.stats.EvictionCount = 0) ∧
    (∃ r1 g1 g2, Get demoEnv oneSlotCache 2 = some (r1, g1) ∧
      g1.lruContainer.keys = [2] ∧
      processEvents g1 [.remove, .add] = some g2 ∧
      idle g2 = true ∧
      g2.stats.EvictionCount = 1) :=
  ⟨rfl, rfl, ⟨_, rfl, rfl, rfl, rfl⟩, rfl, rfl, ⟨_, rfl, rfl, rfl, rfl⟩,
    ⟨_, _, _, rfl, rfl, rfl, rfl, rfl⟩⟩

theorem refresh_after_write_witness :
    refreshCache.lruContainer.Sound ∧
    refreshCache.lruContainer.Get 1 = some 0 ∧
    refreshCache.lruContainer.getEntry 0 = some ⟨1, 10, 0, 0⟩ ∧
    isExpired refreshCache ⟨1, 10, 0, 0⟩ (staleEnv.now refreshCache.clock) = false ∧
    stale (none : Option (Nat → Bool)) 10 = false ∧
    0 < refreshCache.refreshAfterWrite ∧
    (⟨1, 10, 0, 0⟩ : CacheEntry Nat Nat).write
      < staleEnv.now (refreshCache.clock + 1) - refreshCache.refreshAfterWrite ∧
    ∃ g1, GetWithExpiredFunc staleEnv refreshCache 1 none = some (.ok 10, g1) ∧
      g1.loads = refreshCache.loads ∧
      (1 ∉ refreshCache.refreshMap →
        g1.refreshMap = 1 :: refreshCache.refreshMap ∧
        g1.refreshing = refreshCache.refreshing ++ [⟨1, 10, 0, 0⟩]) ∧
      (1 ∈ refreshCache.refreshMap →
        g1.refreshMap = refreshCache.refreshMap ∧ g1.refreshing = refreshCache.refreshing) :=
  have hs : refreshCache.lruContainer.Sound :=
    LruCache.Sound_Add (LruCache.Sound_Init 2) ⟨1, 10, 0, 0⟩
  ⟨hs, rfl, rfl, rfl, rfl, by decide, by decide,
    refresh_after_write staleEnv refreshCache 1 none 0 ⟨1, 10, 0, 0⟩ hs rfl rfl rfl rfl
      (by decide) (by decide)⟩

/-- Two `Get` calls in a row on `refreshCache`: both return the value 10, the
first marks the key and starts one refresh, the second starts none. -/
theorem second_get_starts_no_refresh :
    ∃ r1 g1 r2 g2, Get staleEnv refreshCache 1 = some (r1, g1) ∧
      Get staleEnv g1 1 = some (r2, g2) ∧
      r1 = .ok 10 ∧ r2 = .ok 10 ∧
      refreshCache.refreshing = [] ∧
      g1.refreshMap = [1] ∧ g1.refreshing = [⟨1, 10, 0, 0⟩] ∧
      g2.refreshMap = [1] ∧ g2.refreshing = [⟨1, 10, 0, 0⟩] ∧
      g2.loads = 0 :=
  ⟨_, _, _, _, rfl, rfl, rfl, rfl, rfl, rfl, rfl, rfl, rfl, rfl⟩

theorem Put_present_changes_only_value_witness :
    demoLoaded.lruContainer.Sound ∧
    demoLoaded.lruContainer.Get 1 = some 0 ∧
    demoLoaded.lruContainer.getEntry 0 = some ⟨1, 100, 1, 2⟩ ∧
    ∃ g1, Put demoEnv demoLoaded 1 7 = some g1 ∧
      g1 = { demoLoaded with lruContainer := { demoLoaded.lruContainer with
              ls := setValue demoLoaded.lruContainer.ls 0 ⟨1, 7, 1, 2⟩ } } ∧
      g1.lruContainer.getEntry 0 = some ⟨1, 7, 1, 2⟩ ∧
      (∀ x, x ≠ 0 → g1.lruContainer.getEntry x = demoLoaded.lruContainer.getEntry x) ∧
      g1.lruContainer.ls.map (fun e => (e.addr, e.Value.key, e.Value.access, e.Value.write))
        = demoLoaded.lruContainer.ls.map
            (fun e => (e.addr, e.Value.key, e.Value.access, e.Value.write)) ∧
      g1.lruContainer.data = demoLoaded.lruContainer.data ∧
      g1.lruContainer.ls.length = demoLoaded.lruContainer.ls.length ∧
      g1.stats = demoLoaded.stats :=
  have hs : demoLoaded.lruContainer.Sound :=
    LruCache.Sound_Add (LruCache.Sound_Init 2) ⟨1, 100, 1, 2⟩
  ⟨hs, rfl, rfl,
    Put_present_changes_only_value demoEnv demoLoaded 1 7 0 ⟨1, 100, 1, 2⟩ hs rfl rfl⟩

end LoadingCache

namespace LruCache

theorem zero_capacity_unbounded_witness :
    (0 : Int) ≤ 0 ∧
    run (Init 0) [.add ⟨1, 10, 0, 0⟩, .add ⟨2, 20, 0, 0⟩, .add ⟨3, 30, 0, 0⟩]
      = some demoUnbounded ∧
    (Add demoUnbounded ⟨4, 40, 0, 0⟩).2 = none ∧
    (Load demoUnbounded.data (⟨4, 40, 0, 0⟩ : CacheEntry Nat Nat).key = none →
      (Add demoUnbounded ⟨4, 40, 0, 0⟩).1.ls
        = ⟨demoUnbounded.fresh, ⟨4, 40, 0, 0⟩⟩ :: demoUnbounded.ls ∧
      (Add demoUnbounded ⟨4, 40, 0, 0⟩).1.ls.length = demoUnbounded.ls.length + 1 ∧
      Load (Add demoUnbounded ⟨4, 40, 0, 0⟩).1.data (⟨4, 40, 0, 0⟩ : CacheEntry Nat Nat).key
        = some demoUnbounded.fresh ∧
      (∀ k, k ≠ (⟨4, 40, 0, 0⟩ : CacheEntry Nat Nat).key →
        Load (Add demoUnbounded ⟨4, 40, 0, 0⟩).1.data k = Load demoUnbounded.data k) ∧
      (Add demoUnbounded ⟨4, 40, 0, 0⟩).1.cap = demoUnbounded.cap) :=
  ⟨by decide, rfl,
    zero_capacity_unbounded 0 (by decide)
      [.add ⟨1, 10, 0, 0⟩, .add ⟨2, 20, 0, 0⟩, .add ⟨3, 30, 0, 0⟩] demoUnbounded (by rfl)
      ⟨4, 40, 0, 0⟩⟩

end LruCache

theorem getMinTimeDurationExcludeZero_spec_witness :
    (0 : Int) ≤ 1000000000 ∧ (0 : Int) ≤ 2000000000 ∧
    (((1000000000 : Int) = 0 → (2000000000 : Int) = 0 →
        getMinTimeDurationExcludeZero 1000000000 2000000000 = 0) ∧
     ((1000000000 : Int) = 0 → (0 : Int) < 2000000000 →
        getMinTimeDurationExcludeZero 1000000000 2000000000 = 2000000000) ∧
     ((0 : Int) < 1000000000 → (2000000000 : Int) = 0 →
        getMinTimeDurationExcludeZero 1000000000 2000000000 = 1000000000) ∧
     ((0 : Int) < 1000000000 → (0 : Int) < 2000000000 →
        getMinTimeDurationExcludeZero 1000000000 2000000000
          = min (1000000000 : Int) 2000000000) ∧
     getMinTimeDurationExcludeZero 1000000000 2000000000
        = getMinTimeDurationExcludeZero 2000000000 1000000000 ∧
     (getMinTimeDurationExcludeZero 1000000000 2000000000 = 0 ↔
        (1000000000 : Int) = 0 ∧ (2000000000 : Int) = 0) ∧
     (LoadingCache.sweepTaskRuns (getMinTimeDurationExcludeZero 1000000000 2000000000)
        = false ↔ (1000000000 : Int) = 0 ∧ (2000000000 : Int) = 0)) :=
  ⟨by decide, by decide,
    getMinTimeDurationExcludeZero_spec 1000000000 2000000000 (by decide) (by decide)⟩

/-- The five cases of the test `Test_getMinTimeDurationExcludeZero`. -/
theorem getMinTimeDurationExcludeZero_test_cases :
    getMinTimeDurationExcludeZero 1000000000 2000000000 = 1000000000 ∧
    getMinTimeDurationExcludeZero 2000000000 1000000000 = 1000000000 ∧
    getMinTimeDurationExcludeZero 0 1000000000 = 1000000000 ∧
    getMinTimeDurationExcludeZero 1000000000 0 = 1000000000 ∧
    getMinTimeDurationExcludeZero 0 0 = 0 := by
  decide

namespace Stats

theorem derived_statistics_witness :
    (HitRate ⟨0, 0, 3, 1, 10, 0⟩ = 1.0 ∧ MissRate ⟨0, 0, 3, 1, 10, 0⟩ = 0.0) ∧
    (LoadErrorRate ⟨0, 0, 0, 0, 0, 0⟩ = 0.0 ∧ AverageLoadPenalty ⟨0, 0, 0, 0, 0, 0⟩ = 0) ∧
    AverageLoadPenalty ⟨0, 0, 3, 1, 10, 0⟩ = Int.tdiv 10 ((3 + 1 : Nat) : Int) ∧
    AverageLoadPenalty ⟨0, 0, 3, 1, 10, 0⟩ = 2 :=
  ⟨(derived_statistics ⟨0, 0, 3, 1, 10, 0⟩).1 rfl,
    (derived_statistics ⟨0, 0, 0, 0, 0, 0⟩).2.1 rfl,
    (derived_statistics ⟨0, 0, 3, 1, 10, 0⟩).2.2 (by decide) (by decide) (by decide)
      (by decide),
    by decide⟩

end Stats

/-! ## The fresh hit -/

namespace LoadingCache

variable {K V : Type} [DecidableEq K]

theorem checkRefreshAfterWrite_clock (env : Env K V) (g : LoadingCache K V)
    (en : CacheEntry K V) :
    (checkRefreshAfterWrite env g en).clock
      = if 0 < g.refreshAfterWrite then g.clock + 1 else g.clock := by
  unfold checkRefreshAfterWrite now
  simp only [gt_iff_lt]
  split
  · split
    · split <;> rfl
    · rfl
  · rfl

theorem checkRefreshAfterWrite_refresh (env : Env K V) (g : LoadingCache K V)
    (en : CacheEntry K V) :
    ((0 < g.refreshAfterWrite ∧ en.write < env.now g.clock - g.refreshAfterWrite ∧
        en.key ∉ g.refreshMap) →
      (checkRefreshAfterWrite env g en).refreshMap = en.key :: g.refreshMap ∧
      (checkRefreshAfterWrite env g en).refreshing = g.refreshing ++ [en]) ∧
    (¬ (0 < g.refreshAfterWrite ∧ en.write < env.now g.clock - g.refreshAfterWrite ∧
        en.key ∉ g.refreshMap) →
      (checkRefreshAfterWrite env g en).refreshMap = g.refreshMap ∧
      (checkRefreshAfterWrite env g en).refreshing = g.refreshing) := by
  unfold checkRefreshAfterWrite now
  simp only [gt_iff_lt, ← sub_eq_add_neg]
  constructor
  · rintro ⟨h1, h2, h3⟩
    simp only [h1, if_true, h2, h3, if_false, and_self]
  · intro h
    split
    · rename_i h1
      split
      · rename_i h2
        split
        · exact ⟨rfl, rfl⟩
        · rename_i h3
          exact absurd ⟨h1, h2, h3⟩ h
      · exact ⟨rfl, rfl⟩
    · exact ⟨rfl, rfl⟩

/-- C8: fresh hit.  In a cache whose container is sound, when the index gives
the node `el` for the key, the entry of that node is not expired at the
reading of the clock the call makes and the custom predicate is absent or
false on the cached value, `GetWithExpiredFunc` returns the cached value
with no error and invokes no loader.  The container after the call is the
container before it with one change: the entry of the node `el` has as its
access time the reading of `time.Now()` the call makes after the refresh
check (the reading number `clock + 2` when `refreshAfterWrite > 0`, which
reads the clock, and `clock + 1` otherwise).  Index, nodes, order, keys,
values, write times and the entries of the other nodes are the same; the
statistics and the add and remove channels are the same; the node is sent on
the hit channel, and when the worker receives it from an otherwise empty
channel the node becomes the front of the list and one hit is recorded.  No
refresh goroutine is started and the refresh map is kept, unless
`refreshAfterWrite > 0`, the write time is before the reading of the refresh
check minus `refreshAfterWrite` and the key is not in the refresh map; then
the key is added to the map and one goroutine is started on the entry. -/
theorem fresh_hit (env : Env K V) (g : LoadingCache K V) (key : K)
    (f : Option (V → Bool)) (el : Nat) (entry : CacheEntry K V)
    (hs : g.lruContainer.Sound)
    (hget : g.lruContainer.Get key = some el)
    (hen : g.lruContainer.getEntry el = some entry)
    (hfresh : isExpired g entry (env.now g.clock) = false)
    (hf : stale f entry.value = false) :
    ∃ g1, GetWithExpiredFunc env g key f = some (.ok entry.value, g1) ∧
      g1.loads = g.loads ∧
      g1.stats = g.stats ∧
      g1.hitEvent = g.hitEvent ++ [el] ∧
      g1.addEvent = g.addEvent ∧
      g1.removeEvent = g.removeEvent ∧
      g1.clock = (if 0 < g.refreshAfterWrite then g.clock + 2 else g.clock + 1) + 1 ∧
      g1.lruContainer = { g.lruContainer with
        ls := setValue g.lruContainer.ls el
          { entry with
            access :=
              env.now (if 0 < g.refreshAfterWrite then g.clock + 2 else g.clock + 1) } } ∧
      g1.lruContainer.getEntry el = some
        { entry with
          access :=
            env.now (if 0 < g.refreshAfterWrite then g.clock + 2 else g.clock + 1) } ∧
      (∀ x, x ≠ el → g1.lruContainer.getEntry x = g.lruContainer.getEntry x) ∧
      g1.lruContainer.ls.map (fun e => (e.addr, e.Value.key, e.Value.value, e.Value.write))
        = g.lruContainer.ls.map
            (fun e => (e.addr, e.Value.key, e.Value.value, e.Value.write)) ∧
      ((0 < g.refreshAfterWrite ∧
          entry.write < env.now (g.clock + 1) - g.refreshAfterWrite ∧
          key ∉ g.refreshMap) →
        g1.refreshMap = key :: g.refreshMap ∧
        g1.refreshing = g.refreshing ++ [entry]) ∧
      (¬ (0 < g.refreshAfterWrite ∧
          entry.write < env.now (g.clock + 1) - g.refreshAfterWrite ∧
          key ∉ g.refreshMap) →
        g1.refreshMap = g.refreshMap ∧ g1.refreshing = g.refreshing) ∧
      (g.hitEvent = [] →
        ∃ g2, processEvent g1 .hit = some g2 ∧
          g2.hitEvent = [] ∧
          g2.lruContainer.ls =
            ⟨el, { entry with
              access :=
                env.now (if 0 < g.refreshAfterWrite then g.clock + 2 else g.clock + 1) }⟩
              :: unlink g.lruContainer.ls el ∧
          g2.lruContainer.data = g.lruContainer.data ∧
          g2.stats.HitCount = u64 (g.stats.HitCount + 1)) := by
  obtain ⟨e, as, bs, hsplit, ha, hk, hen2⟩ := entry_of_Get hs hget
  rw [hen, Option.some.injEq] at hen2
  have hkey : entry.key = key := by rw [hen2, hk]
  have hn := hs.addrs
  rw [hsplit] at hn
  have hres := Get_fresh_eq env g key f el entry hget hen hfresh hf
  obtain ⟨hfr1, hfr2, hfr3, hfr4, hfr5, hfr6⟩ :=
    checkRefreshAfterWrite_frame env { g with clock := g.clock + 1 } entry
  have hclock := checkRefreshAfterWrite_clock env { g with clock := g.clock + 1 } entry
  obtain ⟨href1, href2⟩ :=
    checkRefreshAfterWrite_refresh env { g with clock := g.clock + 1 } entry
  obtain ⟨gr, hgr⟩ : ∃ gr, gr = checkRefreshAfterWrite env { g with clock := g.clock + 1 } entry :=
    ⟨_, rfl⟩
  rw [← hgr] at hres hfr1 hfr2 hfr3 hfr4 hfr5 hfr6 hclock href1 href2
  dsimp only at hfr1 hfr2 hfr3 hfr4 hfr5 hfr6 hclock href1 href2
  rw [hkey] at href1 href2
  have hidx : gr.clock = if 0 < g.refreshAfterWrite then g.clock + 2 else g.clock + 1 := by
    rw [hclock]
  obtain ⟨t, ht⟩ : ∃ t, t
      = env.now (if 0 < g.refreshAfterWrite then g.clock + 2 else g.clock + 1) := ⟨_, rfl⟩
  rw [hidx, ← ht] at hres
  rw [← ht]
  have hd : setValue g.lruContainer.detached el { entry with access := t }
      = g.lruContainer.detached :=
    setValue_absent _ (fun d hd heq =>
      (hs.apart d hd).2 e (by rw [hsplit]; simp) (ha.trans heq.symm))
  have hls : setValue g.lruContainer.ls el { entry with access := t }
      = as ++ ⟨e.addr, { entry with access := t }⟩ :: bs := by
    rw [hsplit, ← ha]
    exact setValue_mid _ hn
  have hn2 : ((as ++ (⟨e.addr, { entry with access := t }⟩ : Element K V) :: bs).map
      (fun x => x.addr)).Nodup := by
    simpa using hn
  have hun : unlink g.lruContainer.ls el = as ++ bs := by
    rw [hsplit, ← ha]
    exact unlink_mid hn
  have hlc : gr.lruContainer.setEntry el { entry with access := t }
      = { g.lruContainer with
          ls := setValue g.lruContainer.ls el { entry with access := t } } := by
    simp only [LruCache.setEntry, hfr1, hd]
  rw [hlc] at hres
  refine ⟨_, hres, hfr2, hfr3, ?_, hfr5, hfr6, rfl, rfl, ?_, ?_, ?_, href1, href2, ?_⟩
  · simp only [hfr4]
  · simp only [LruCache.getEntry, hls]
    rw [← ha, findNode_mid hn2]
  · intro x hx
    simp only [LruCache.getEntry, LruCache.findNode_setValue_ne _ _ _ _ hx]
  · simp only [hls]
    rw [hsplit, hen2]
    simp
  · intro hq
    have hmove : MoveToFront (as ++ (⟨e.addr, { entry with access := t }⟩ : Element K V) :: bs)
        e.addr = ⟨e.addr, { entry with access := t }⟩ :: (as ++ bs) :=
      MoveToFront_mid (e := ⟨e.addr, { entry with access := t }⟩) hn2
    have hproc : processEvent
        { gr with
          clock := (if 0 < g.refreshAfterWrite then g.clock + 2 else g.clock + 1) + 1,
          lruContainer := { g.lruContainer with
            ls := setValue g.lruContainer.ls el { entry with access := t } },
          hitEvent := gr.hitEvent ++ [el] } Chan.hit
        = some
        { gr with
          clock := (if 0 < g.refreshAfterWrite then g.clock + 2 else g.clock + 1) + 1,
          lruContainer := LruCache.Hit { g.lruContainer with
            ls := setValue g.lruContainer.ls el { entry with access := t } } el,
          hitEvent := [],
          stats := gr.stats.RecordHits 1 } := by
      simp only [processEvent, hfr4, hq, List.nil_append]
    refine ⟨_, hproc, rfl, ?_, rfl, ?_⟩
    · simp only [LruCache.Hit, hls]
      rw [hun, ← ha]
      exact hmove
    · simp only [Stats.RecordHits, hfr3]

theorem fresh_hit_witness :
    demoLoaded.lruContainer.Sound ∧
    demoLoaded.lruContainer.Get 1 = some 0 ∧
    demoLoaded.lruContainer.getEntry 0 = some ⟨1, 100, 1, 2⟩ ∧
    isExpired demoLoaded ⟨1, 100, 1, 2⟩ (demoEnv.now demoLoaded.clock) = false ∧
    stale (none : Option (Nat → Bool)) 100 = false ∧
    demoEnv.now
      (if 0 < demoLoaded.refreshAfterWrite then demoLoaded.clock + 2
        else demoLoaded.clock + 1) = 5 ∧
    ∃ g1, GetWithExpiredFunc demoEnv demoLoaded 1 none = some (.ok 100, g1) ∧
      g1.loads = demoLoaded.loads ∧
      g1.stats = demoLoaded.stats ∧
      g1.hitEvent = demoLoaded.hitEvent ++ [0] ∧
      g1.addEvent = demoLoaded.addEvent ∧
      g1.removeEvent = demoLoaded.removeEvent ∧
      g1.clock = (if 0 < demoLoaded.refreshAfterWrite then demoLoaded.clock + 2
        else demoLoaded.clock + 1) + 1 ∧
      g1.lruContainer = { demoLoaded.lruContainer with
        ls := setValue demoLoaded.lruContainer.ls 0
          { (⟨1, 100, 1, 2⟩ : CacheEntry Nat Nat) with
            access :=
              demoEnv.now (if 0 < demoLoaded.refreshAfterWrite then demoLoaded.clock + 2
                else demoLoaded.clock + 1) } } ∧
      g1.lruContainer.getEntry 0 = some
        { (⟨1, 100, 1, 2⟩ : CacheEntry Nat Nat) with
          access :=
            demoEnv.now (if 0 < demoLoaded.refreshAfterWrite then demoLoaded.clock + 2
              else demoLoaded.clock + 1) } ∧
      (∀ x, x ≠ 0 → g1.lruContainer.getEntry x = demoLoaded.lruContainer.getEntry x) ∧
      g1.lruContainer.ls.map (fun e => (e.addr, e.Value.key, e.Value.value, e.Value.write))
        = demoLoaded.lruContainer.ls.map
            (fun e => (e.addr, e.Value.key, e.Value.value, e.Value.write)) ∧
      ((0 < demoLoaded.refreshAfterWrite ∧
          (⟨1, 100, 1, 2⟩ : CacheEntry Nat Nat).write
            < demoEnv.now (demoLoaded.clock + 1) - demoLoaded.refreshAfterWrite ∧
          1 ∉ demoLoaded.refreshMap) →
        g1.refreshMap = 1 :: demoLoaded.refreshMap ∧
        g1.refreshing = demoLoaded.refreshing ++ [⟨1, 100, 1, 2⟩]) ∧
      (¬ (0 < demoLoaded.refreshAfterWrite ∧
          (⟨1, 100, 1, 2⟩ : CacheEntry Nat Nat).write
            < demoEnv.now (demoLoaded.clock + 1) - demoLoaded.refreshAfterWrite ∧
          1 ∉ demoLoaded.refreshMap) →
        g1.refreshMap = demoLoaded.refreshMap ∧ g1.refreshing = demoLoaded.refreshing) ∧
      (demoLoaded.hitEvent = [] →
        ∃ g2, processEvent g1 .hit = some g2 ∧
          g2.hitEvent = [] ∧
          g2.lruContainer.ls =
            ⟨0, { (⟨1, 100, 1, 2⟩ : CacheEntry Nat Nat) with
              access :=
                demoEnv.now (if 0 < demoLoaded.refreshAfterWrite then demoLoaded.clock + 2
                  else demoLoaded.clock + 1) }⟩
              :: unlink demoLoaded.lruContainer.ls 0 ∧
          g2.lruContainer.data = demoLoaded.lruContainer.data ∧
          g2.stats.HitCount = u64 (demoLoaded.stats.HitCount + 1)) :=
  have hs : demoLoaded.lruContainer.Sound :=
    LruCache.Sound_Add (LruCache.Sound_Init 2) ⟨1, 100, 1, 2⟩
  ⟨hs, rfl, rfl, rfl, rfl, rfl,
    fresh_hit demoEnv demoLoaded 1 none 0 ⟨1, 100, 1, 2⟩ hs rfl rfl rfl rfl⟩

/-- The fresh hit on `demoLoaded`, computed: the access time of the entry goes
from 1 to 5, the reading `Get` makes after the expiration check, and nothing
else in the container changes; on `refreshCache`, where a refresh is due, the
access time goes from 0 to 10 and one refresh goroutine is started. -/
theorem fresh_hit_computed :
    (∃ g1, Get demoEnv demoLoaded 1 = some (.ok 100, g1) ∧
      demoLoaded.lruContainer.ls = [⟨0, ⟨1, 100, 1, 2⟩⟩] ∧
      g1.lruContainer.ls = [⟨0, ⟨1, 100, 5, 2⟩⟩] ∧
      g1.lruContainer.data = demoLoaded.lruContainer.data ∧
      g1.refreshing = [] ∧ g1.loads = demoLoaded.loads) ∧
    (∃ g1, Get staleEnv refreshCache 1 = some (.ok 10, g1) ∧
      refreshCache.lruContainer.ls = [⟨0, ⟨1, 10, 0, 0⟩⟩] ∧
      g1.lruContainer.ls = [⟨0, ⟨1, 10, 10, 0⟩⟩] ∧
      g1.refreshMap = [1] ∧
      g1.refreshing = [⟨1, 10, 0, 0⟩] ∧ g1.loads = refreshCache.loads) :=
  ⟨⟨_, rfl, rfl, rfl, rfl, rfl, rfl⟩, ⟨_, rfl, rfl, rfl, rfl, rfl, rfl⟩⟩

end LoadingCache

end GuavaCache
